import Mathlib

set_option linter.unusedSectionVars false
set_option linter.unusedVariables false

/-!
# Verification of the Noir SSA / ACIR lowering core

A shallow embedding of the compiler core:

* `crates/acir/src/optimiser/general_optimiser.rs` — gate optimiser
  (`GeneralOpt::optimise`, `remove_zero_coefficients`, `simplify_mul_terms`);
* `crates/noirc_evaluator/src/ssa/acir_gen.rs` — the field-expression algebra
  (`add`, `mul`, `single_mul`, `from_witness`, `boolean`), gate emission
  (`evaluate_and`, `evaluate_xor`, `range_constraint`, the `Sub` lowering arm);
* `crates/noirc_evaluator/src/ssa/code_gen.rs` — the SSA builder
  (`find_const`, `get_const`, `new_constant`, `generate_empty_phi`,
  `handle_for_expr`).

Field elements are modelled by an arbitrary decidable field `F`
(concretely instantiated at the computable prime field `ZMod 101` for
witnesses and counterexamples);
witness identifiers (`Witness` wraps a `u32`) are modelled by `ℕ`.
Machine panics (`todo!`, `unwrap`, `assert!`) are modelled by `Option`/`Except`.
-/

namespace Noir

/-! ## Definitions -/

/-- A circuit witness identifier (the Rust `Witness` newtype over `u32`). -/
abbrev Witness := Nat

/-- The degree-≤2 field polynomial `Arithmetic { mul_terms, linear_combinations, q_c }`:
a list of bilinear terms `(coefficient, witness, witness)`, a list of linear terms
`(coefficient, witness)`, and a constant term. -/
structure Arithmetic (F : Type) where
  mul_terms : List (F × Witness × Witness)
  linear_combinations : List (F × Witness)
  q_c : F
deriving DecidableEq

/-- Rust `Ord` on a 2-tuple of witnesses: lexicographic comparison
(as used by `(a.mul_terms[i].1, a.mul_terms[i].2).cmp(...)` and by `BTreeMap`). -/
def pairCompare (p q : Witness × Witness) : Ordering :=
  match compare p.1 q.1 with
  | .eq => compare p.2 q.2
  | o => o

/-- Rust `<` on a 2-tuple of witnesses (lexicographic), as used in `single_mul`. -/
def pairLt (p q : Witness × Witness) : Bool :=
  pairCompare p q == .lt

variable {F : Type} [Field F] [DecidableEq F]

/-- The concrete prime field used to run the embedded code on explicit
inputs. -/
instance : Fact (Nat.Prime 101) := ⟨by norm_num⟩

/-- `remove_zero_coefficients`: drop every mul term and every linear term whose
coefficient is zero (`filter (|(scale, ..)| !scale.is_zero())`). -/
def remove_zero_coefficients (gate : Arithmetic F) : Arithmetic F :=
  { gate with
    mul_terms := gate.mul_terms.filter (fun t => decide (t.1 ≠ 0)),
    linear_combinations := gate.linear_combinations.filter (fun t => decide (t.1 ≠ 0)) }

/-- The canonically sorted unordered pair of a mul term:
`let mut pair = vec![w_l, w_r]; pair.sort();`. -/
def canonPair (p : Witness × Witness) : Witness × Witness :=
  if p.1 ≤ p.2 then p else (p.2, p.1)

/-- `BTreeMap<(Witness, Witness), F>` entry update
(`*map.entry(key).or_insert_with(F::zero) += scale`), modelled on the sorted
association list that a `BTreeMap` is observationally equal to: insertion keeps
keys strictly sorted by `pairCompare`, and an existing key accumulates. -/
def btreeAdd : List ((Witness × Witness) × F) → Witness × Witness → F →
    List ((Witness × Witness) × F)
  | [], key, scale => [(key, 0 + scale)]
  | (k, v) :: rest, key, scale =>
    match pairCompare key k with
    | .lt => (key, 0 + scale) :: (k, v) :: rest
    | .eq => (k, v + scale) :: rest
    | .gt => (k, v) :: btreeAdd rest key scale

/-- `simplify_mul_terms`: canonicalise every mul term's witness pair, accumulate
coefficients per pair in a `BTreeMap`, and rebuild `mul_terms` from the map's
key-sorted iteration.  Note: a pair whose accumulated coefficient is zero stays
in the map and hence in the result. -/
def simplify_mul_terms (gate : Arithmetic F) : Arithmetic F :=
  let map := gate.mul_terms.foldl
    (fun m t => btreeAdd m (canonPair (t.2.1, t.2.2)) t.1) []
  { gate with mul_terms := map.map (fun kv => (kv.2, kv.1.1, kv.1.2)) }

/-- `GeneralOpt::optimise`: `remove_zero_coefficients` first, then
`simplify_mul_terms`. -/
def optimise (gate : Arithmetic F) : Arithmetic F :=
  simplify_mul_terms (remove_zero_coefficients gate)

/-- `Arithmetic::from(Linear::from_witness(w))` / `from_witness(w)`:
the degree-1 expression `1·w`. -/
def from_witness (witness : Witness) : Arithmetic F :=
  { mul_terms := [], linear_combinations := [(1, witness)], q_c := 0 }

/-- `is_const`: no mul terms and no linear terms. -/
def is_const (expr : Arithmetic F) : Bool :=
  expr.mul_terms.isEmpty && expr.linear_combinations.isEmpty

/-- The sorted-merge loop shared (textually identical up to the key comparator)
by the linear-term and mul-term halves of `add(a, k, b)`: walk both lists,
push `a`'s term unchanged when its key is smaller, push `k`-scaled `b`-terms
and combined `a + k·b` coefficients only when non-zero. -/
def mergeTerms {β : Type} (cmp : β → β → Ordering) (k : F) :
    List (F × β) → List (F × β) → List (F × β)
  | [], bs => bs.filterMap (fun t => if t.1 * k ≠ 0 then some (t.1 * k, t.2) else none)
  | a :: as_, [] => a :: as_
  | (ca, wa) :: as_, (cb, wb) :: bs =>
    match cmp wa wb with
    | .gt =>
      (if cb * k ≠ 0 then [(cb * k, wb)] else []) ++ mergeTerms cmp k ((ca, wa) :: as_) bs
    | .lt => (ca, wa) :: mergeTerms cmp k as_ ((cb, wb) :: bs)
    | .eq =>
      (if ca + cb * k ≠ 0 then [(ca + cb * k, wa)] else []) ++ mergeTerms cmp k as_ bs
termination_by as_ bs => as_.length + bs.length

/-- `add(a, k, b) -> a + k·b`: sorted merge of the linear lists (keyed by the
witness), sorted merge of the mul lists (keyed by the lexicographic witness
pair), constant term `a.q_c + k * b.q_c`. -/
def add (a : Arithmetic F) (k : F) (b : Arithmetic F) : Arithmetic F :=
  { mul_terms :=
      mergeTerms (fun p q => pairCompare p q) k a.mul_terms b.mul_terms,
    linear_combinations :=
      mergeTerms (fun x y => compare x y) k a.linear_combinations b.linear_combinations,
    q_c := a.q_c + k * b.q_c }

/-- `single_mul(w, b)`: one mul term per linear term of `b`, the pair ordered
by the literal test `(w, b[i].1) < (b[i].1, w)` from the source. -/
def single_mul (w : Witness) (b : Arithmetic F) : Arithmetic F :=
  { mul_terms := b.linear_combinations.map (fun lc =>
      if pairLt (w, lc.2) (lc.2, w) then (lc.1, w, lc.2) else (lc.1, lc.2, w)),
    linear_combinations := [],
    q_c := 0 }

/-- How a call of `mul` can fail to return: the `todo!("PANIC")` guard, or the
linear-terms merge loop running forever (its index updates can make no
progress; see `mul`). -/
inductive MulError where
  | panic
  | diverge
deriving DecidableEq

/-- The linear-terms while-loop of `mul(a, b)`, verbatim: cursors `i1` into
`a.linear_combinations` and `i2` into `b.linear_combinations`, cross
coefficients `coef_a = b.q_c * a[i1].0` and `coef_b = a.q_c * b[i2].0`, and the
source's exact cursor updates (including the `i2 + 1 < a.len()` comparison
against the wrong list in the `Equal` arm).  The loop does not always make
progress, so it is run on fuel; exhausted fuel is reported as `none`. -/
def mulLinLoop (a b : Arithmetic F) :
    Nat → Nat → Nat → List (F × Witness) → Option (List (F × Witness))
  | 0, _, _, _ => none
  | fuel + 1, i1, i2, out =>
    if h : i1 < a.linear_combinations.length ∧ i2 < b.linear_combinations.length then
      let ta := a.linear_combinations.get ⟨i1, h.1⟩
      let tb := b.linear_combinations.get ⟨i2, h.2⟩
      let coef_a := b.q_c * ta.1
      let coef_b := a.q_c * tb.1
      match compare ta.2 tb.2 with
      | .gt =>
        let out := if coef_b ≠ 0 then out ++ [(coef_b, tb.2)] else out
        if i2 + 1 ≥ b.linear_combinations.length then
          mulLinLoop a b fuel (i1 + 1) i2 out
        else
          mulLinLoop a b fuel i1 (i2 + 1) out
      | .lt =>
        let out := if coef_a ≠ 0 then out ++ [(coef_a, ta.2)] else out
        if i1 + 1 ≥ a.linear_combinations.length then
          mulLinLoop a b fuel i1 (i2 + 1) out
        else
          mulLinLoop a b fuel (i1 + 1) i2 out
      | .eq =>
        let out := if coef_a + coef_b ≠ 0 then out ++ [(coef_a + coef_b, ta.2)] else out
        if i1 + 1 ≥ a.linear_combinations.length ∧ i2 + 1 ≥ b.linear_combinations.length then
          mulLinLoop a b fuel (i1 + 1) (i2 + 1) out
        else
          let i1' := if i1 + 1 < a.linear_combinations.length then i1 + 1 else i1
          let i2' := if i2 + 1 < a.linear_combinations.length then i2 + 1 else i2
          mulLinLoop a b fuel i1' i2' out
    else some out

/-- `mul(a, b)`: `todo!("PANIC")` unless **both** operands have an empty
`mul_terms` list; then the bilinear part is accumulated by folding
`output = add(output, lc.0, single_mul(lc.1, b))` over `a`'s linear terms, the
linear part is produced by `mulLinLoop`, and the constant term is
`a.q_c * b.q_c`.  Any terminating run of the source loop performs at most
`a.len + b.len` cursor advances, so the fuel `a.len + b.len + 1` is exhausted
only on runs that make no progress, i.e. genuine divergence. -/
def mul (a b : Arithmetic F) : Except MulError (Arithmetic F) :=
  if ¬(a.mul_terms = [] ∧ b.mul_terms = []) then .error .panic
  else
    let output0 : Arithmetic F :=
      a.linear_combinations.foldl
        (fun out lc => add out lc.1 (single_mul lc.2 b))
        { mul_terms := [], linear_combinations := [], q_c := 0 }
    match mulLinLoop a b
        (a.linear_combinations.length + b.linear_combinations.length + 1)
        0 0 output0.linear_combinations with
    | none => .error .diverge
    | some lin =>
      .ok { mul_terms := output0.mul_terms, linear_combinations := lin,
            q_c := a.q_c * b.q_c }

/-- Strict key-sortedness of a `BTreeMap`-style association list. -/
def SortedKeys (m : List ((Witness × Witness) × F)) : Prop :=
  m.Pairwise (fun x y => pairCompare x.1 y.1 = .lt)

/-- The total value an association list assigns to the key `p`
(for a strictly key-sorted list, the stored value or `0`). -/
def lookupVal (m : List ((Witness × Witness) × F)) (p : Witness × Witness) : F :=
  ((m.filter (fun kv => decide (kv.1 = p))).map (fun kv => kv.2)).sum

/-- The total coefficient of all mul terms whose unordered witness pair
canonicalises to `p`. -/
def mulCoeffAt (l : List (F × Witness × Witness)) (p : Witness × Witness) : F :=
  ((l.filter (fun t => decide (canonPair (t.2.1, t.2.2) = p))).map (fun t => t.1)).sum

/-- Two mul terms of opposite coefficient on the same unordered pair, inserted
in either order: `1·w0·w1` and `(-1)·w1·w0`. -/
def cancelGate : Arithmetic (ZMod 101) :=
  { mul_terms := [(1, 0, 1), (-1, 1, 0)], linear_combinations := [], q_c := 0 }

/-- An expression with a bilinear term, `1·w0·w1`. -/
def mulPanicA : Arithmetic (ZMod 101) :=
  { mul_terms := [(1, 0, 1)], linear_combinations := [], q_c := 0 }

/-- The constant expression `1` (no bilinear terms at all). -/
def mulPanicB : Arithmetic (ZMod 101) :=
  { mul_terms := [], linear_combinations := [], q_c := 1 }

/-- The `simplify_mul_terms` fold step. -/
def simplifyStep (m : List ((Witness × Witness) × F)) (t : F × Witness × Witness) :
    List ((Witness × Witness) × F) :=
  btreeAdd m (canonPair (t.2.1, t.2.2)) t.1

/-- The value of a term list under a valuation of its keys
(`evalTerms σ` for linear terms, `evalTerms (fun p => σ p.1 * σ p.2)` for
bilinear terms). -/
def evalTerms {β : Type} (val : β → F) (l : List (F × β)) : F :=
  (l.map (fun t => t.1 * val t.2)).sum

/-- The polynomial denoted by an `Arithmetic` expression, at a witness
assignment `σ`. -/
def evalExpr (σ : Witness → F) (a : Arithmetic F) : F :=
  a.q_c + evalTerms σ a.linear_combinations
    + evalTerms (fun p => σ p.1 * σ p.2) a.mul_terms

/-- The total coefficient a term list carries on the key `x`. -/
def termCoeff {β : Type} [DecidableEq β] (l : List (F × β)) (x : β) : F :=
  ((l.filter (fun t => decide (t.2 = x))).map (fun t => t.1)).sum

/-- No term of the list has a zero coefficient. -/
@[reducible] def NonzeroTerms {β : Type} (l : List (F × β)) : Prop :=
  ∀ t ∈ l, t.1 ≠ 0

/-- Linear terms strictly sorted by witness identifier (hence unique). -/
@[reducible] def SortedLin (l : List (F × Witness)) : Prop :=
  l.Pairwise (fun s t => s.2 < t.2)

/-- Mul terms strictly sorted by the lexicographic witness pair (hence unique). -/
@[reducible] def SortedMulPairs (l : List (F × Witness × Witness)) : Prop :=
  l.Pairwise (fun s t => pairCompare s.2 t.2 = .lt)

/-- The data-model invariant of §3: both term lists sorted by their key
(so witnesses/pairs are unique) and free of zero coefficients. -/
@[reducible] def ExprInvariant (a : Arithmetic F) : Prop :=
  SortedLin a.linear_combinations ∧ SortedMulPairs a.mul_terms ∧
    NonzeroTerms a.linear_combinations ∧ NonzeroTerms a.mul_terms

/-- A concrete expression satisfying the data-model invariant. -/
def addInvA : Arithmetic (ZMod 101) :=
  { mul_terms := [(2, 1, 3)], linear_combinations := [(1, 0), (2, 2)], q_c := 3 }

/-- A second concrete expression satisfying the data-model invariant. -/
def addInvB : Arithmetic (ZMod 101) :=
  { mul_terms := [(1, 1, 3), (4, 2, 2)], linear_combinations := [(3, 2)], q_c := 5 }

/-- A concrete witness assignment, `w_i := i + 1`. -/
def addSigma : Witness → ZMod 101 := fun n => (n : ZMod 101) + 1

/-- `a = 1 + w2` — purely linear, non-zero constant term. -/
def mulWrongA : Arithmetic (ZMod 101) :=
  { mul_terms := [], linear_combinations := [(1, 2)], q_c := 1 }

/-- `b = 1 + w1` — purely linear, non-zero constant term. -/
def mulWrongB : Arithmetic (ZMod 101) :=
  { mul_terms := [], linear_combinations := [(1, 1)], q_c := 1 }

/-- What `mul mulWrongA mulWrongB` actually returns: `1 + w1 + w1·w2`,
missing the `w2` linear cross term of the true product
`1 + w1 + w2 + w1·w2`. -/
def mulWrongOut : Arithmetic (ZMod 101) :=
  { mul_terms := [(1, 1, 2)], linear_combinations := [(1, 1)], q_c := 1 }

/-- The all-ones witness assignment. -/
def allOnes : Witness → ZMod 101 := fun _ => 1

/-- The gate variants emitted by the embedded fragment of the lowering pass
(the acir crate's `Gate`, restricted to the constructors this fragment
emits). -/
inductive Gate (F : Type) where
  | Arith (a : Arithmetic F)
  | Range (w : Witness) (bits : Nat)
  | DirTruncate (a b c : Witness) (bit_size : Nat)
  | DirQuotient (a b q r : Witness)
  | DirOddrange (a b r : Witness) (bit_size : Nat)
  | AndGate (a b result : Witness) (num_bits : Nat)
  | XorGate (a b result : Witness) (num_bits : Nat)
deriving DecidableEq

/-- The witness allocator and append-only gate list of the `Evaluator`. -/
structure Evaluator (F : Type) where
  current_witness : Nat
  gates : List (Gate F)
deriving DecidableEq

/-- `Evaluator::add_witness_to_cs`: allocate and return a fresh witness. -/
def add_witness_to_cs (e : Evaluator F) : Witness × Evaluator F :=
  (e.current_witness, { e with current_witness := e.current_witness + 1 })

/-- Append one gate to the evaluator's gate list. -/
def pushGate (e : Evaluator F) (g : Gate F) : Evaluator F :=
  { e with gates := e.gates ++ [g] }

/-- Modelled from the spec: `Evaluator::create_intermediate_variable` lives in
the evaluator crate root, which is not under `src/`.  Per §4.6 and the
commented-out body of `generate_witness`, it allocates a fresh witness `w` and
emits the arithmetic gate `expr − w = 0` (the acvm `Sub` on `Arithmetic` is
`add(·, −1, ·)` per §4.1). -/
def create_intermediate_variable (e : Evaluator F) (expr : Arithmetic F) :
    Witness × Evaluator F :=
  let (w, e1) := add_witness_to_cs e
  (w, pushGate e1 (.Arith (add expr (-1) (from_witness w))))

/-- The lowering-time expression cache entry `InternalVar`. -/
structure InternalVar (F : Type) where
  expression : Arithmetic F
  witness : Option Witness
  idx : Option Nat
deriving DecidableEq

/-- `generate_witness(lhs)`: reuse `lhs.witness` when bound; `todo!("Panic")`
on a constant expression (modelled as `none`); otherwise materialise the
expression through `create_intermediate_variable`. -/
def generate_witness (lhs : InternalVar F) (e : Evaluator F) :
    Option (Witness × Evaluator F) :=
  match lhs.witness with
  | some w => some (w, e)
  | none =>
    if is_const lhs.expression then none
    else some (create_intermediate_variable e lhs.expression)

/-- `evaluate_and`: allocate the result witness first, materialise `lhs` into
`a_witness` and `rhs` into `b_witness` (each via
`·.witness.unwrap_or_else(|| generate_witness(·))`), emit one `AndGate`, and
return the result witness as a degree-1 expression. -/
def evaluate_and (lhs rhs : InternalVar F) (bit_size : Nat) (e : Evaluator F) :
    Option (Arithmetic F × Evaluator F) := do
  let (result, e1) := add_witness_to_cs e
  let (a_witness, e2) ←
    match lhs.witness with
    | some w => some (w, e1)
    | none => generate_witness lhs e1
  let (b_witness, e3) ←
    match rhs.witness with
    | some w => some (w, e2)
    | none => generate_witness rhs e2
  some (from_witness result,
    pushGate e3 (.AndGate a_witness b_witness result bit_size))

/-- `evaluate_xor`, verbatim from the source **including its slip**: the
`b_witness` binding reads
`lhs.witness.unwrap_or_else(|| generate_witness(&rhs, evaluator))` — it
consults the *left* operand's witness binding (falling back to materialising
the right operand), instead of `rhs.witness`. -/
def evaluate_xor (lhs rhs : InternalVar F) (bit_size : Nat) (e : Evaluator F) :
    Option (Arithmetic F × Evaluator F) := do
  let (result, e1) := add_witness_to_cs e
  let (a_witness, e2) ←
    match lhs.witness with
    | some w => some (w, e1)
    | none => generate_witness lhs e1
  let (b_witness, e3) ←
    match lhs.witness with
    | some w => some (w, e2)
    | none => generate_witness rhs e2
  some (from_witness result,
    pushGate e3 (.XorGate a_witness b_witness result bit_size))

/-- The error kind surfaced by `range_constraint` (the embedded fragment only
produces `UnstructuredError`). -/
inductive RuntimeErrorKind where
  | UnstructuredError (message : String)
deriving DecidableEq

/-- `FieldElement::max_num_bits()` of the concrete bn254 scalar field the
lowering pass is instantiated at: 254. -/
def fieldMaxNumBits : Nat := 254

/-- `boolean(w)`: the consistency constraint `w·w − w = 0`. -/
def boolean (witness : Witness) : Arithmetic F :=
  { mul_terms := [(1, witness, witness)],
    linear_combinations := [(-1, witness)],
    q_c := 0 }

/-- `range_constraint(w, num_bits)`: 1-bit → boolean gate; full field width →
error, no gate; odd width → `Oddrange` directive on fresh `r`, `b`, recursive
range constraints for `r` at `num_bits − 1` and `b` at `1` (their errors are
swallowed with `unwrap_or_else(dbg!)` in the source), then the reconstruction
constraint `r + 2^(num_bits−1)·b − w = 0`; anything else → one `Range` gate. -/
def range_constraint (w : Witness) (num_bits : Nat) (e : Evaluator F) :
    Evaluator F × Except RuntimeErrorKind Unit :=
  if h1 : num_bits = 1 then
    (pushGate e (.Arith (boolean w)), .ok ())
  else if h2 : num_bits = fieldMaxNumBits then
    (e, .error (.UnstructuredError
      "All Witnesses are by default u254. Applying this type does not apply any constraints."))
  else if h3 : num_bits % 2 = 1 then
    let (r_witness, e1) := add_witness_to_cs e
    let (b_witness, e2) := add_witness_to_cs e1
    let e3 := pushGate e2 (.DirOddrange w b_witness r_witness num_bits)
    let e4 := (range_constraint r_witness (num_bits - 1) e3).1
    let e5 := (range_constraint b_witness 1 e4).1
    let f : F := (2 : F) ^ (num_bits - 1)
    let res := add (from_witness r_witness) f (from_witness b_witness)
    let my_constraint := add res (-1) (from_witness w)
    (pushGate e5 (.Arith my_constraint), .ok ())
  else
    (pushGate e (.Range w num_bits), .ok ())
termination_by num_bits
decreasing_by all_goals omega

/-- The `Operation::Sub | Operation::SafeSub` arm of
`Acir::evaluate_instruction`: `bit_size` is the right operand node's declared
bit width, `max_value` the instruction's tracked maximum value (a `BigUint`,
modelled by `ℕ` with the division/remainder computed exactly), and the output
is `add(lhs, −1, rhs)` with `k·2^bit_size` added to its constant term, where
`k = max_value / 2^bit_size`, incremented when the remainder is non-zero. -/
def evaluate_sub (lhs rhs : Arithmetic F) (bit_size : Nat) (max_value : Nat) :
    Arithmetic F :=
  let r_big : Nat := 2 ^ bit_size
  let k0 := max_value / r_big
  let k1 := if max_value % r_big ≠ 0 then k0 + 1 else k0
  let k2 := k1 * r_big
  let f : F := (k2 : F)
  let output := add lhs (-1) rhs
  { output with q_c := output.q_c + f }

/-- Left operand for the C5 run: already bound to witness 5. -/
def xorLhs : InternalVar (ZMod 101) := ⟨from_witness 5, some 5, none⟩

/-- Right operand for the C5 run: already bound to witness 7. -/
def xorRhs : InternalVar (ZMod 101) := ⟨from_witness 7, some 7, none⟩

/-- Initial evaluator for the C5 run: next fresh witness 10, no gates. -/
def e0C5 : Evaluator (ZMod 101) := ⟨10, []⟩

/-- Concrete left operand for the C7 witness: the single witness `w0`. -/
def subLhsW : Arithmetic (ZMod 101) :=
  { mul_terms := [], linear_combinations := [(1, 0)], q_c := 0 }

/-- Concrete right operand for the C7 witness: the single witness `w1`. -/
def subRhsW : Arithmetic (ZMod 101) :=
  { mul_terms := [], linear_combinations := [(1, 1)], q_c := 0 }

/-- The spec §8 example gate: products `(3, w2, w5)` and `(4, w5, w2)`. -/
def mergeGate : Arithmetic (ZMod 101) :=
  { mul_terms := [(3, 2, 5), (4, 5, 2)], linear_combinations := [], q_c := 0 }

/-- `IRGenerator::dummy_id()`: `Index::from_raw_parts(usize::MAX, 0)`. -/
def dummyId : Nat := 18446744073709551615

/-- Modelled from the spec: the `node::ObjectType` catalogue (§3); `node.rs`
is not under `src/`. -/
inductive ObjectType where
  | NativeField
  | Boolean
  | NotAnObject
  | Signed (bits : Nat)
  | Unsigned (bits : Nat)
  | Pointer (arrayId : Nat)
deriving DecidableEq

/-- Modelled from the spec: the `node::Operation` catalogue (§4.4); `node.rs`
is not under `src/`.  Only the operators reachable from the embedded fragment
are included. -/
inductive Operation where
  | Add | Sub | Mul | Udiv | Sdiv | Urem | Srem | Div
  | Eq | Ne | Lt | Gt
  | And | Or | Xor | Not
  | Cast | Trunc | Ass
  | Jne | Jeq | Jmp | Phi | Nop | EqGate
  | Load (arrayId : Nat) | Store (arrayId : Nat)
deriving DecidableEq

/-- Modelled from the spec: `node::Variable` (§3).  `name` is cosmetic. -/
structure Variable where
  id : Nat
  obj_type : ObjectType
  name : String
  root : Option Nat
  def_id : Option Nat
  witness : Option Nat
  parent_block : Nat
deriving DecidableEq

/-- Modelled from the spec: `node::Constant` (§3): a big-integer value (`ℕ`),
its semantic type, and a derived string form. -/
structure Constant where
  id : Nat
  value : Nat
  value_str : String
  value_type : ObjectType
deriving DecidableEq

/-- Modelled from the spec: `node::Instruction` (§3). -/
structure Instruction where
  idx : Nat
  operator : Operation
  lhs : Nat
  rhs : Nat
  res_type : ObjectType
  parent_block : Option Nat
  is_deleted : Bool
  res_name : String
  bit_size : Nat
  max_value : Nat
  phi_arguments : List (Nat × Nat)
deriving DecidableEq

/-- Modelled from the spec: `Instruction::new(op, lhs, rhs, optype, parent)`
with fresh-instruction defaults. -/
def Instruction.new (operator : Operation) (lhs rhs : Nat) (res_type : ObjectType)
    (parent_block : Option Nat) : Instruction :=
  { idx := dummyId, operator, lhs, rhs, res_type, parent_block,
    is_deleted := false, res_name := "", bit_size := 0, max_value := 0,
    phi_arguments := [] }

/-- The three node variants of the arena. -/
inductive NodeObj where
  | Obj (v : Variable)
  | Const (c : Constant)
  | Instr (i : Instruction)
deriving DecidableEq

/-- `NodeObj::get_type`. -/
def NodeObj.get_type : NodeObj → ObjectType
  | .Obj v => v.obj_type
  | .Const c => c.value_type
  | .Instr i => i.res_type

/-- The block-kind tag. -/
inductive BlockType where
  | Normal
  | ForJoin
deriving DecidableEq

/-- Modelled from the spec: `block::BasicBlock` (§3); sealedness is tracked in
`IRGenerator.sealed_blocks` as in the source. -/
structure BasicBlock where
  idx : Nat
  kind : BlockType
  instructions : List Nat
  predecessor : List Nat
  left : Option Nat
  right : Option Nat
  value_map : List (Nat × Nat)
deriving DecidableEq

/-- The SSA builder state: the block arena, the node arena (arena handle =
insertion position), the entry and current blocks, and the sealed set. -/
structure IRGenerator where
  first_block : Nat
  current_block : Nat
  blocks : List BasicBlock
  nodes : List NodeObj
  sealed_blocks : List Nat
deriving DecidableEq

/-- `IRGenerator::get_object`. -/
def get_object (g : IRGenerator) (i : Nat) : Option NodeObj := g.nodes[i]?

/-- `IRGenerator::try_get_instruction`. -/
def try_get_instruction (g : IRGenerator) (i : Nat) : Option Instruction :=
  match get_object g i with
  | some (.Instr ins) => some ins
  | _ => none

/-- `IRGenerator::get_variable` (its error result modelled as `none`). -/
def get_variable (g : IRGenerator) (i : Nat) : Option Variable :=
  match get_object g i with
  | some (.Obj v) => some v
  | _ => none

/-- `IRGenerator::get_object_type`: `get_object(idx).unwrap().get_type()`,
the unwrap modelled as `Option`. -/
def get_object_type (g : IRGenerator) (i : Nat) : Option ObjectType :=
  (get_object g i).map NodeObj.get_type

/-- `IRGenerator::get_as_constant`: the node's big-integer value when it is a
`Constant` node, else `None`.  (The source reduces the value into the field;
only constancy and the integer value matter here.) -/
def get_as_constant (g : IRGenerator) (i : Nat) : Option Nat :=
  match get_object g i with
  | some (.Const c) => some c.value
  | _ => none

/-- The iteration of `find_const`: scan arena slots in index order for the
first `Constant` of the given value. -/
def find_const_aux (value : Nat) : List NodeObj → Nat → Option Nat
  | [], _ => none
  | .Const c :: rest, i =>
    if c.value = value then some i else find_const_aux value rest (i + 1)
  | _ :: rest, i => find_const_aux value rest (i + 1)

/-- `IRGenerator::find_const`. -/
def find_const (g : IRGenerator) (value : Nat) : Option Nat :=
  find_const_aux value g.nodes 0

/-- Replace block `i` of the arena (the source holds `get_block_mut(i).unwrap()`;
every use below has a valid index, and an invalid one leaves the state
unchanged). -/
def update_block (g : IRGenerator) (i : Nat) (f : BasicBlock → BasicBlock) :
    IRGenerator :=
  match g.blocks[i]? with
  | some b => { g with blocks := g.blocks.set i (f b) }
  | none => g

/-- `IRGenerator::add_object`: insert the node, store its own handle in it,
and push an instruction node onto the current block's instruction list. -/
def add_object (g : IRGenerator) (obj : NodeObj) : IRGenerator × Nat :=
  let idx := g.nodes.length
  match obj with
  | .Obj v => ({ g with nodes := g.nodes ++ [.Obj { v with id := idx }] }, idx)
  | .Const c => ({ g with nodes := g.nodes ++ [.Const { c with id := idx }] }, idx)
  | .Instr i =>
    let g1 := { g with nodes := g.nodes ++ [.Instr { i with idx := idx }] }
    (update_block g1 g1.current_block
      (fun b => { b with instructions := b.instructions ++ [idx] }), idx)

/-- `IRGenerator::get_const(x, t)`: return the prior constant of equal value
when one exists, else insert a fresh `Constant` node. -/
def get_const (g : IRGenerator) (value : Nat) (t : ObjectType) :
    IRGenerator × Nat :=
  match find_const g value with
  | some obj => (g, obj)
  | none =>
    add_object g (.Const { id := dummyId, value, value_str := "", value_type := t })

/-- Modelled from the spec: `FieldElement::num_bits` (acvm, not under `src/`)
is the bit length of the value. -/
def numBitsOf (v : Nat) : Nat := if v = 0 then 0 else Nat.log2 v + 1

/-- `IRGenerator::new_constant(x)`: dedup first; otherwise type the constant
`Signed 32`/`Signed 64` by bit size, and `todo!()` (modelled `none`) for 64
bits or more. -/
def new_constant (g : IRGenerator) (value : Nat) : Option (IRGenerator × Nat) :=
  match find_const g value with
  | some prev_const => some (g, prev_const)
  | none =>
    let num_bits := numBitsOf value
    if num_bits < 32 then
      some (add_object g (.Const
        { id := dummyId, value, value_str := "", value_type := .Signed 32 }))
    else if num_bits < 64 then
      some (add_object g (.Const
        { id := dummyId, value, value_str := "", value_type := .Signed 64 }))
    else none

/-- The duplicate-phi scan at the head of `generate_empty_phi`: the first
instruction of the block whose operator is `Phi` and whose `rhs` is the root. -/
def scan_phi (g : IRGenerator) (root : Nat) : List Nat → Option Nat
  | [] => none
  | i :: rest =>
    match try_get_instruction g i with
    | some ins =>
      if ins.operator = .Phi ∧ ins.rhs = root then some i
      else scan_phi g root rest
    | none => scan_phi g root rest

/-- `IRGenerator::generate_empty_phi(target_block, root)`: return the existing
phi for `root` if the block has one; otherwise insert a fresh `Phi root root`
node straight into the arena (not through `add_object`) and splice its handle
into the block's instruction list at position 1
(`block.instructions.insert(1, phi_id)`, which panics on an empty vector). -/
def generate_empty_phi (g : IRGenerator) (target_block root : Nat) :
    Option (IRGenerator × Nat) := do
  let block ← g.blocks[target_block]?
  match scan_phi g root block.instructions with
  | some i => some (g, i)
  | none => do
    let v_type ← get_object_type g root
    let new_phi := Instruction.new .Phi root root v_type (some target_block)
    let phi_id := g.nodes.length
    let g1 := { g with nodes := g.nodes ++ [NodeObj.Instr { new_phi with idx := phi_id }] }
    match block.instructions with
    | [] => none
    | i0 :: rest =>
      let block1 := { block with instructions := i0 :: phi_id :: rest }
      some ({ g1 with blocks := g1.blocks.set target_block block1 }, phi_id)

/-- Modelled from the spec: `Variable::get_root` — the `root` back-reference
to the first SSA version, or the variable itself (§3); `node.rs` is not under
`src/`. -/
def Variable.get_root (v : Variable) : Nat := v.root.getD v.id

/-- `IRGenerator::get_root_id`: `get_variable(var_id).unwrap().get_root()`. -/
def get_root_id (g : IRGenerator) (var_id : Nat) : Option Nat :=
  (get_variable g var_id).map Variable.get_root

/-- Association-list update used for a block's per-block value map. -/
def map_update : List (Nat × Nat) → Nat → Nat → List (Nat × Nat)
  | [], k, v => [(k, v)]
  | (k0, v0) :: rest, k, v =>
    if k0 = k then (k0, v) :: rest else (k0, v0) :: map_update rest k v

/-- Association-list lookup. -/
def lookup_assoc : List (Nat × Nat) → Nat → Option Nat
  | [], _ => none
  | (k, v) :: rest, x => if k = x then some v else lookup_assoc rest x

/-- Modelled from the spec: `BasicBlock::update_variable` records "the current
value of this variable in this block" (§3); `block.rs` is not under `src/`. -/
def block_update_variable (g : IRGenerator) (block_id var_id value : Nat) :
    IRGenerator :=
  update_block g block_id
    (fun b => { b with value_map := map_update b.value_map var_id value })

/-- `IRGenerator::update_variable_id(var_id, new_var, new_value)`: looks up the
root variable (an `unwrap` that can panic — hence `Option`) and records
`new_value` as the current value of `var_id` in the *current* block.  The
`value_name` counter and the renaming of `new_var` only produce `res_name`
strings and are omitted. -/
def update_variable_id (g : IRGenerator) (var_id new_var new_value : Nat) :
    Option IRGenerator := do
  let _root_id ← get_root_id g var_id
  let _ := new_var
  some (block_update_variable g g.current_block var_id new_value)

/-- `IRGenerator::new_instruction`: `optim::simplify` (whose module `optim.rs`
is not under `src/`) is modelled from the spec — §4.5 only requires that a
*provably no-op* instruction be replaced by its operand, so the embedding
conservatively performs no simplification and every instruction is inserted
through `add_object` into the current block. -/
def new_instruction (g : IRGenerator) (lhs rhs : Nat) (opcode : Operation)
    (optype : ObjectType) : IRGenerator × Nat :=
  add_object g (.Instr (Instruction.new opcode lhs rhs optype (some g.current_block)))

/-- `IRGenerator::create_new_variable(name, def, env)`: a fresh unbound
variable added with `add_variable(·, None)`.  The object type read from the
runtime environment is modelled as `NativeField` — `handle_for_expr`
overwrites it with `Unsigned 32` immediately afterwards. -/

def create_new_variable (g : IRGenerator) : IRGenerator × Nat :=
  let idx := g.nodes.length
  ({ g with nodes := g.nodes ++ [NodeObj.Obj
      { id := idx, obj_type := .NativeField, name := "", root := none,
        def_id := none, witness := none, parent_block := g.current_block }] }, idx)

/-- `iter_var.obj_type = ObjectType::Unsigned(32)` through
`get_mut_variable(iter_id).unwrap()`. -/
def set_var_type (g : IRGenerator) (var_id : Nat) (t : ObjectType) :
    Option IRGenerator :=
  match get_object g var_id with
  | some (.Obj v) =>
    some { g with nodes := g.nodes.set var_id (.Obj { v with obj_type := t }) }
  | _ => none

/-- Modelled from the spec: `block::new_sealed_block` / `new_unsealed_block`
(`block.rs` is not under `src/`).  Per §4.3 and the call sites of
`handle_for_expr`: create a block whose predecessor is the current block and
whose first instruction is a fresh `Nop` node (so `get_first_instruction`
exists), link the current block's left successor to it, make it current, and
record it sealed when requested. -/
def new_block (g : IRGenerator) (kind : BlockType) (sealed : Bool) :
    IRGenerator × Nat :=
  let block_id := g.blocks.length
  let nop_id := g.nodes.length
  let g1 := { g with nodes := g.nodes ++ [NodeObj.Instr
    { Instruction.new .Nop dummyId dummyId .NotAnObject (some block_id) with
        idx := nop_id }] }
  let newb : BasicBlock :=
    { idx := block_id, kind, instructions := [nop_id],
      predecessor := [g.current_block], left := none, right := none,
      value_map := [] }
  let g2 := update_block g1 g1.current_block (fun b => { b with left := some block_id })
  let g3 := { g2 with blocks := g2.blocks ++ [newb], current_block := block_id }
  let g4 :=
    if sealed then { g3 with sealed_blocks := g3.sealed_blocks ++ [block_id] } else g3
  (g4, block_id)

/-- `block::new_sealed_block`. -/
def new_sealed_block (g : IRGenerator) (kind : BlockType) : IRGenerator × Nat :=
  new_block g kind true

/-- `block::new_unsealed_block`. -/
def new_unsealed_block (g : IRGenerator) (kind : BlockType) : IRGenerator × Nat :=
  new_block g kind false

/-- Modelled from the spec: `block::link_with_target` sets a block's explicit
left/right successors (§4.3). -/
def link_with_target (g : IRGenerator) (target : Nat) (left right : Option Nat) :
    IRGenerator :=
  update_block g target (fun b => { b with left := left, right := right })

/-- Modelled from the spec: `ssa_form::get_current_value` resolves a root
variable's current value by walking the per-block value maps up the
predecessor chain (§4.4); `ssa_form.rs` is not under `src/`.  The walk is
fuelled by the number of blocks. -/
def get_current_value_aux (g : IRGenerator) : Nat → Nat → Nat → Nat
  | 0, _, root => root
  | fuel + 1, block_id, root =>
    match g.blocks[block_id]? with
    | none => root
    | some b =>
      match lookup_assoc b.value_map root with
      | some v => v
      | none =>
        match b.predecessor.head? with
        | some p => get_current_value_aux g fuel p root
        | none => root

/-- One step of phi finalisation at block sealing: set the phi's incoming
arguments to one `(value, predecessor)` pair per predecessor, in predecessor
order. -/
def finalize_phi (g : IRGenerator) (block : BasicBlock) (i : Nat) : IRGenerator :=
  match try_get_instruction g i with
  | some ins =>
    if ins.operator = .Phi then
      { g with nodes := g.nodes.set i (.Instr { ins with
          phi_arguments := block.predecessor.map
            (fun p => (get_current_value_aux g g.blocks.length p ins.rhs, p)) }) }
    else g
  | none => g

/-- Modelled from the spec: `ssa_form::seal_block` marks the block sealed and
finalises its placeholder phis with one incoming value per now-known
predecessor (§4.3); `ssa_form.rs` is not under `src/`. -/
def seal_block (g : IRGenerator) (block_id : Nat) : IRGenerator :=
  match g.blocks[block_id]? with
  | none => g
  | some b =>
    let g1 := b.instructions.foldl (fun gg i => finalize_phi gg b i) g
    { g1 with sealed_blocks := g1.sealed_blocks ++ [block_id] }

/-- `cur_block.left = Some(join_idx)`. -/
def set_block_left (g : IRGenerator) (block_id : Nat) (l : Option Nat) :
    IRGenerator :=
  update_block g block_id (fun b => { b with left := l })

/-- `join_mut.predecessor.push(cur_block_id)`. -/
def push_predecessor (g : IRGenerator) (block_id p : Nat) : IRGenerator :=
  update_block g block_id (fun b => { b with predecessor := b.predecessor ++ [p] })

/-- `to_fix_ins.unwrap().rhs = body_idx` through `try_get_mut_instruction`. -/
def set_instruction_rhs (g : IRGenerator) (i rhs : Nat) : Option IRGenerator :=
  match try_get_instruction g i with
  | some ins => some { g with nodes := g.nodes.set i (.Instr { ins with rhs }) }
  | none => none

/-- `IRGenerator::handle_for_expr`, taking the already-evaluated node handles
of the start and end range bounds (`expression_to_object` applied to the two
range expressions).  The **only** constancy check is
`self.get_as_constant(start_idx).unwrap()` — a panic, modelled as `none` —
performed before any loop structure exists; `end_idx` is never checked and is
used as-is as the `Ne` comparison operand.  The loop body's statements are
independent of the claims and the embedding takes the body to be the empty
statement list; `env.store` is environment-only and has no IR effect. -/
def handle_for_expr (g : IRGenerator) (start_idx end_idx : Nat) :
    Option (IRGenerator × Nat) := do
  let _start ← get_as_constant g start_idx
  let (g, iter_id) := create_new_variable g
  let g ← set_var_type g iter_id (.Unsigned 32)
  let iter_type ← get_object_type g iter_id
  let (g, iter_ass) := new_instruction g iter_id start_idx .Ass iter_type
  let g ← update_variable_id g iter_id iter_ass start_idx
  let (g, join_idx) := new_unsealed_block g .ForJoin
  let (g, exit_id) := new_sealed_block g .Normal
  let g := { g with current_block := join_idx }
  let (g, phi) ← generate_empty_phi g join_idx iter_id
  let g ← update_variable_id g iter_id iter_id phi
  let (g, cond) := new_instruction g phi end_idx .Ne .Boolean
  let (g, to_fix) := new_instruction g cond dummyId .Jeq .NotAnObject
  let (g, body_idx) := new_sealed_block g .Normal
  let g := block_update_variable g body_idx iter_id phi
  let (g, one) := get_const g 1 iter_type
  let (g, incr) := new_instruction g phi one .Add iter_type
  let cur_block_id := g.current_block
  let g := block_update_variable g cur_block_id iter_id incr
  let g := set_block_left g cur_block_id (some join_idx)
  let g := push_predecessor g join_idx cur_block_id
  let jb ← g.blocks[join_idx]?
  let join_first ← jb.instructions.head?
  let (g, _jmp) := new_instruction g dummyId join_first .Jmp .NotAnObject
  let g := seal_block g join_idx
  let g := { g with current_block := exit_id }
  let eb ← g.blocks[exit_id]?
  let exit_first ← eb.instructions.head?
  let g := link_with_target g join_idx (some exit_id) (some body_idx)
  let g ← set_instruction_rhs g to_fix body_idx
  some (g, exit_first)

/-- A one-block generator whose node 1 is the constant `3` (the loop start)
and whose node 2 is a plain variable (a dynamic loop end bound). -/
def g0C8 : IRGenerator :=
  { first_block := 0, current_block := 0,
    blocks := [{ idx := 0, kind := .Normal, instructions := [0], predecessor := [],
                 left := none, right := none, value_map := [] }],
    nodes := [.Instr { Instruction.new .Nop dummyId dummyId .NotAnObject (some 0) with idx := 0 },
              .Const { id := 1, value := 3, value_str := "", value_type := .Signed 32 },
              .Obj { id := 2, obj_type := .Unsigned 32, name := "", root := none,
                     def_id := none, witness := some 9, parent_block := 0 }],
    sealed_blocks := [0] }

/-- Some node of the arena is a `Phi` instruction. -/
def hasPhiNode (g : IRGenerator) : Bool :=
  g.nodes.any (fun o => match o with
    | .Instr i => decide (i.operator = Operation.Phi)
    | _ => false)

/-- A generator holding a single non-constant node, for the C8 witness. -/
def gW8 : IRGenerator :=
  { first_block := 0, current_block := 0, blocks := [],
    nodes := [.Obj { id := 0, obj_type := .Unsigned 32, name := "", root := none,
                     def_id := none, witness := none, parent_block := 0 }],
    sealed_blocks := [] }

/-- Arena slot `i` holds a `Constant` node of value `v`. -/
@[reducible] def constAt (g : IRGenerator) (i v : Nat) : Prop :=
  ∃ c, g.nodes[i]? = some (NodeObj.Const c) ∧ c.value = v

/-- No two `Constant` nodes of the arena hold the same big-integer value. -/
@[reducible] def NoDupConsts (g : IRGenerator) : Prop :=
  ∀ (i j : Nat) (ci cj : Constant), g.nodes[i]? = some (NodeObj.Const ci) →
    g.nodes[j]? = some (NodeObj.Const cj) → ci.value = cj.value → i = j

/-- The one-block, one-constant generator the C9 witness runs on. -/
def g0C9 : IRGenerator :=
  { first_block := 0, current_block := 0,
    blocks := [{ idx := 0, kind := .Normal, instructions := [], predecessor := [],
                 left := none, right := none, value_map := [] }],
    nodes := [NodeObj.Const { id := 0, value := 5, value_str := "", value_type := .Signed 32 }],
    sealed_blocks := [0] }

/-- The phi node inserted by a cache-missing `generate_empty_phi` call. -/
def freshPhi (g : IRGenerator) (target_block root : Nat) (vt : ObjectType) :
    Instruction :=
  { Instruction.new .Phi root root vt (some target_block) with idx := g.nodes.length }

/-- The generator state after a cache-missing `generate_empty_phi` call. -/
def phiInserted (g : IRGenerator) (target_block root : Nat) (vt : ObjectType)
    (block : BasicBlock) (i0 : Nat) (rest : List Nat) : IRGenerator :=
  { g with
    nodes := g.nodes ++ [NodeObj.Instr (freshPhi g target_block root vt)],
    blocks := g.blocks.set target_block
      { block with instructions := i0 :: g.nodes.length :: rest } }

/-- The one-block generator (a `Nop` first instruction, a variable at slot 1)
the C10 witness runs on. -/
def g0C10 : IRGenerator :=
  { first_block := 0, current_block := 0,
    blocks := [{ idx := 0, kind := .ForJoin, instructions := [0], predecessor := [],
                 left := none, right := none, value_map := [] }],
    nodes := [NodeObj.Instr
      { Instruction.new .Nop dummyId dummyId .NotAnObject (some 0) with idx := 0 },
      NodeObj.Obj { id := 1, obj_type := .Unsigned 32, name := "", root := none,
                    def_id := none, witness := none, parent_block := 0 }],
    sealed_blocks := [] }

/-- The generator after the first `generate_empty_phi g0C10 0 1` call. -/
def g1C10 : IRGenerator :=
  { first_block := 0, current_block := 0,
    blocks := [{ idx := 0, kind := .ForJoin, instructions := [0, 2], predecessor := [],
                 left := none, right := none, value_map := [] }],
    nodes := [NodeObj.Instr
      { Instruction.new .Nop dummyId dummyId .NotAnObject (some 0) with idx := 0 },
      NodeObj.Obj { id := 1, obj_type := .Unsigned 32, name := "", root := none,
                    def_id := none, witness := none, parent_block := 0 },
      NodeObj.Instr
      { Instruction.new .Phi 1 1 (.Unsigned 32) (some 0) with idx := 2 }],
    sealed_blocks := [] }

/-! ## Theorems -/

theorem pairCompare_eq_iff (p q : ℕ × ℕ) :
    pairCompare p q = .eq ↔ p = q := by
  unfold pairCompare
  rcases Nat.lt_trichotomy p.1 q.1 with h | h | h
  · simp [Nat.compare_eq_lt.2 h]
    exact fun hc => absurd (congrArg Prod.fst hc) (Nat.ne_of_lt h)
  · rw [show compare p.1 q.1 = .eq from Nat.compare_eq_eq.2 h]
    rw [Nat.compare_eq_eq]
    constructor
    · exact fun h2 => Prod.ext h h2
    · exact fun hc => congrArg Prod.snd hc
  · simp [Nat.compare_eq_gt.2 h]
    exact fun hc => absurd (congrArg Prod.fst hc) (Nat.ne_of_gt h)

theorem pairCompare_lt_iff (p q : ℕ × ℕ) :
    pairCompare p q = .lt ↔ p.1 < q.1 ∨ (p.1 = q.1 ∧ p.2 < q.2) := by
  unfold pairCompare
  rcases Nat.lt_trichotomy p.1 q.1 with h | h | h
  · simp [Nat.compare_eq_lt.2 h, h]
  · rw [show compare p.1 q.1 = .eq from Nat.compare_eq_eq.2 h]
    simp [Nat.compare_eq_lt, h]
  · simp [Nat.compare_eq_gt.2 h, Nat.lt_asymm h, Nat.ne_of_gt h]

theorem pairCompare_gt_iff (p q : ℕ × ℕ) :
    pairCompare p q = .gt ↔ pairCompare q p = .lt := by
  unfold pairCompare
  rcases Nat.lt_trichotomy p.1 q.1 with h | h | h
  · simp [Nat.compare_eq_lt.2 h, Nat.compare_eq_gt.2 h]
  · rw [show compare p.1 q.1 = .eq from Nat.compare_eq_eq.2 h,
      show compare q.1 p.1 = .eq from Nat.compare_eq_eq.2 h.symm]
    simp [Nat.compare_eq_gt, Nat.compare_eq_lt]
  · simp [Nat.compare_eq_gt.2 h, Nat.compare_eq_lt.2 h]

theorem pairCompare_lt_trans {p q r : ℕ × ℕ}
    (h1 : pairCompare p q = .lt) (h2 : pairCompare q r = .lt) :
    pairCompare p r = .lt := by
  rw [pairCompare_lt_iff] at h1 h2 ⊢
  omega

theorem pairCompare_lt_ne {p q : ℕ × ℕ}
    (h : pairCompare p q = .lt) : p ≠ q := by
  rw [pairCompare_lt_iff] at h
  intro hc
  subst hc
  omega

theorem btreeAdd_keys (m : List ((Witness × Witness) × F)) (key : Witness × Witness)
    (s : F) (q : Witness × Witness) :
    q ∈ (btreeAdd m key s).map Prod.fst ↔ q ∈ m.map Prod.fst ∨ q = key := by
  induction m with
  | nil => simp [btreeAdd, eq_comm]
  | cons kv rest ih =>
    obtain ⟨k, v⟩ := kv
    cases h : pairCompare key k with
    | lt => simp [btreeAdd, h]; tauto
    | eq =>
      rw [pairCompare_eq_iff] at h
      subst h
      have hk : pairCompare key key = .eq := (pairCompare_eq_iff key key).2 rfl
      simp [btreeAdd, hk]
      tauto
    | gt => simp [btreeAdd, h, ih]; tauto

theorem btreeAdd_sorted (m : List ((Witness × Witness) × F)) (key : Witness × Witness)
    (s : F) (hm : SortedKeys m) : SortedKeys (btreeAdd m key s) := by
  induction m with
  | nil => simp [btreeAdd, SortedKeys]
  | cons kv rest ih =>
    obtain ⟨k, v⟩ := kv
    rw [SortedKeys, List.pairwise_cons] at hm
    cases h : pairCompare key k with
    | lt =>
      rw [SortedKeys]
      unfold btreeAdd
      rw [h]
      refine List.Pairwise.cons ?_ (List.Pairwise.cons hm.1 hm.2)
      intro y hy
      rcases List.mem_cons.1 hy with hy | hy
      · subst hy; exact h
      · exact pairCompare_lt_trans h (hm.1 y hy)
    | eq =>
      rw [pairCompare_eq_iff] at h
      subst h
      have hk : pairCompare key key = .eq := (pairCompare_eq_iff key key).2 rfl
      rw [SortedKeys]
      unfold btreeAdd
      rw [hk]
      exact List.Pairwise.cons hm.1 hm.2
    | gt =>
      rw [SortedKeys]
      unfold btreeAdd
      rw [h]
      refine List.Pairwise.cons ?_ (ih hm.2)
      intro y hy
      have hy' : y.1 ∈ (btreeAdd rest key s).map Prod.fst := List.mem_map_of_mem _ hy
      rcases (btreeAdd_keys rest key s y.1).1 hy' with hmem | heq
      · rcases List.mem_map.1 hmem with ⟨z, hz, hz1⟩
        rw [← hz1]
        exact hm.1 z hz
      · rw [heq]
        exact (pairCompare_gt_iff key k).1 h

theorem lookupVal_nil (p : Witness × Witness) : lookupVal ([] : List ((Witness × Witness) × F)) p = 0 := rfl

theorem lookupVal_cons (kv : (Witness × Witness) × F) (rest : List ((Witness × Witness) × F))
    (p : Witness × Witness) :
    lookupVal (kv :: rest) p = (if kv.1 = p then kv.2 else 0) + lookupVal rest p := by
  by_cases h : kv.1 = p <;> simp [lookupVal, List.filter_cons, h]

theorem btreeAdd_lookup (m : List ((Witness × Witness) × F)) (key : Witness × Witness)
    (s : F) (p : Witness × Witness) :
    lookupVal (btreeAdd m key s) p = lookupVal m p + (if p = key then s else 0) := by
  induction m with
  | nil =>
    show lookupVal [(key, 0 + s)] p = lookupVal [] p + (if p = key then s else 0)
    simp only [lookupVal_cons, lookupVal_nil]
    by_cases hp : p = key
    · subst hp; simp
    · have hkp : ¬(key = p) := fun hc => hp hc.symm
      simp [hp, hkp]
  | cons kv rest ih =>
    obtain ⟨k, v⟩ := kv
    cases h : pairCompare key k with
    | lt =>
      unfold btreeAdd
      rw [h]
      simp only [lookupVal_cons]
      by_cases hp : p = key
      · subst hp; simp; ring
      · have hkp : ¬(key = p) := fun hc => hp hc.symm
        simp [hp, hkp]
    | eq =>
      rw [pairCompare_eq_iff] at h
      subst h
      have hk : pairCompare key key = .eq := (pairCompare_eq_iff key key).2 rfl
      unfold btreeAdd
      rw [hk]
      simp only [lookupVal_cons]
      by_cases hp : p = key
      · subst hp; simp; ring
      · have hkp : ¬(key = p) := fun hc => hp hc.symm
        simp [hp, hkp]
    | gt =>
      unfold btreeAdd
      rw [h]
      simp only [lookupVal_cons]
      rw [ih]
      ring

theorem mulCoeffAt_cons (t : F × Witness × Witness) (rest : List (F × Witness × Witness))
    (p : Witness × Witness) :
    mulCoeffAt (t :: rest) p
      = (if canonPair (t.2.1, t.2.2) = p then t.1 else 0) + mulCoeffAt rest p := by
  by_cases h : canonPair (t.2.1, t.2.2) = p <;> simp [mulCoeffAt, List.filter_cons, h]

theorem foldl_simplify_lookup (l : List (F × Witness × Witness))
    (m : List ((Witness × Witness) × F)) (p : Witness × Witness) :
    lookupVal (l.foldl simplifyStep m) p = lookupVal m p + mulCoeffAt l p := by
  induction l generalizing m with
  | nil => simp [mulCoeffAt, lookupVal]
  | cons t rest ih =>
    rw [List.foldl_cons, ih, simplifyStep, btreeAdd_lookup, mulCoeffAt_cons]
    by_cases hp : canonPair (t.2.1, t.2.2) = p
    · rw [if_pos hp, if_pos hp.symm]; ring
    · rw [if_neg hp, if_neg (fun hc => hp hc.symm)]; ring

theorem foldl_simplify_sorted (l : List (F × Witness × Witness))
    (m : List ((Witness × Witness) × F)) (hm : SortedKeys m) :
    SortedKeys (l.foldl simplifyStep m) := by
  induction l generalizing m with
  | nil => exact hm
  | cons t rest ih =>
    rw [List.foldl_cons]
    exact ih _ (btreeAdd_sorted _ _ _ hm)

theorem foldl_simplify_keys (l : List (F × Witness × Witness))
    (m : List ((Witness × Witness) × F)) (q : Witness × Witness) :
    q ∈ (l.foldl simplifyStep m).map Prod.fst ↔
      q ∈ m.map Prod.fst ∨ ∃ t ∈ l, canonPair (t.2.1, t.2.2) = q := by
  induction l generalizing m with
  | nil => simp
  | cons t rest ih =>
    rw [List.foldl_cons, ih, simplifyStep, btreeAdd_keys]
    simp only [List.mem_cons]
    constructor
    · rintro ((hm | hk) | ⟨u, hu, hcu⟩)
      · exact .inl hm
      · exact .inr ⟨t, .inl rfl, hk.symm⟩
      · exact .inr ⟨u, .inr hu, hcu⟩
    · rintro (hm | ⟨u, hu | hu, hcu⟩)
      · exact .inl (.inl hm)
      · subst hu; exact .inl (.inr hcu.symm)
      · exact .inr ⟨u, hu, hcu⟩

theorem lookupVal_of_mem_sorted {m : List ((Witness × Witness) × F)}
    (hm : SortedKeys m) {p : Witness × Witness} {v : F} (hmem : (p, v) ∈ m) :
    lookupVal m p = v := by
  induction m with
  | nil => simp at hmem
  | cons kv rest ih =>
    obtain ⟨k, w⟩ := kv
    rw [SortedKeys, List.pairwise_cons] at hm
    rcases List.mem_cons.1 hmem with h | h
    · injection h with h1 h2
      subst h1
      subst h2
      have hzero : lookupVal rest p = 0 := by
        have hfil : rest.filter (fun kv => decide (kv.1 = p)) = [] := by
          refine List.filter_eq_nil_iff.2 ?_
          intro u hu
          simpa using pairCompare_lt_ne (hm.1 u hu) ∘ Eq.symm
        simp [lookupVal, hfil]
      rw [lookupVal_cons, hzero]
      simp
    · have hne : k ≠ p := by
        intro hc
        subst hc
        exact pairCompare_lt_ne (hm.1 _ h) rfl
      rw [lookupVal_cons, ih hm.2 h, if_neg hne]
      ring

theorem mulCoeffAt_filter_nonzero (l : List (F × Witness × Witness))
    (p : Witness × Witness) :
    mulCoeffAt (l.filter (fun t => decide (t.1 ≠ 0))) p = mulCoeffAt l p := by
  induction l with
  | nil => rfl
  | cons t rest ih =>
    by_cases h0 : t.1 = 0
    · have hstep : (t :: rest).filter (fun t => decide (t.1 ≠ 0))
          = rest.filter (fun t => decide (t.1 ≠ 0)) := by
        simp [List.filter_cons, h0]
      rw [hstep, ih, mulCoeffAt_cons, h0]
      simp
    · have hstep : (t :: rest).filter (fun t => decide (t.1 ≠ 0))
          = t :: rest.filter (fun t => decide (t.1 ≠ 0)) := by
        simp [List.filter_cons, h0]
      rw [hstep, mulCoeffAt_cons, mulCoeffAt_cons, ih]

/-- `canonPair` always returns an ordered pair. -/
theorem canonPair_le (p : Witness × Witness) : (canonPair p).1 ≤ (canonPair p).2 := by
  unfold canonPair
  split
  · assumption
  · exact Nat.le_of_lt (Nat.lt_of_not_le (by assumption))

theorem evalTerms_nil {β : Type} (val : β → F) : evalTerms val [] = 0 := rfl

theorem evalTerms_cons {β : Type} (val : β → F) (t : F × β) (l : List (F × β)) :
    evalTerms val (t :: l) = t.1 * val t.2 + evalTerms val l := by
  simp [evalTerms]

theorem evalTerms_append {β : Type} (val : β → F) (l1 l2 : List (F × β)) :
    evalTerms val (l1 ++ l2) = evalTerms val l1 + evalTerms val l2 := by
  simp [evalTerms]

theorem termCoeff_nil {β : Type} [DecidableEq β] (x : β) :
    termCoeff ([] : List (F × β)) x = 0 := rfl

theorem termCoeff_cons {β : Type} [DecidableEq β] (t : F × β) (l : List (F × β)) (x : β) :
    termCoeff (t :: l) x = (if t.2 = x then t.1 else 0) + termCoeff l x := by
  by_cases h : t.2 = x <;> simp [termCoeff, List.filter_cons, h]

theorem termCoeff_append {β : Type} [DecidableEq β] (l1 l2 : List (F × β)) (x : β) :
    termCoeff (l1 ++ l2) x = termCoeff l1 x + termCoeff l2 x := by
  simp [termCoeff]

/-- The `b`-tail of the merge (`filterMap` scaling by `k`) evaluates to
`k` times the original list. -/
theorem evalTerms_scaleFilter {β : Type} (val : β → F) (k : F) (bs : List (F × β)) :
    evalTerms val
        (bs.filterMap (fun t => if t.1 * k ≠ 0 then some (t.1 * k, t.2) else none))
      = k * evalTerms val bs := by
  induction bs with
  | nil => simp [evalTerms]
  | cons t rest ih =>
    rw [List.filterMap_cons]
    by_cases h0 : t.1 * k = 0
    · rw [if_neg (by simp [h0]), ih, evalTerms_cons]
      have hz : k * (t.1 * val t.2) = 0 := by
        rw [← mul_assoc, mul_comm k t.1, h0, zero_mul]
      rw [mul_add, hz, zero_add]
    · rw [if_pos (by simp [h0]), evalTerms_cons, evalTerms_cons, ih]
      ring

theorem termCoeff_scaleFilter {β : Type} [DecidableEq β] (k : F) (bs : List (F × β))
    (x : β) :
    termCoeff
        (bs.filterMap (fun t => if t.1 * k ≠ 0 then some (t.1 * k, t.2) else none)) x
      = k * termCoeff bs x := by
  induction bs with
  | nil => simp [termCoeff]
  | cons t rest ih =>
    rw [List.filterMap_cons]
    by_cases h0 : t.1 * k = 0
    · rw [if_neg (by simp [h0]), ih, termCoeff_cons, mul_add]
      by_cases hx : t.2 = x
      · rw [if_pos hx, mul_comm k t.1, h0, zero_add]
      · rw [if_neg hx, mul_zero, zero_add]
    · rw [if_pos (by simp [h0]), termCoeff_cons, termCoeff_cons, ih, mul_add]
      by_cases hx : t.2 = x
      · rw [if_pos hx, if_pos hx, mul_comm k t.1]
      · rw [if_neg hx, if_neg hx]
        ring

theorem mergeTerms_eval {β : Type} (cmp : β → β → Ordering)
    (heq : ∀ u v : β, cmp u v = .eq → u = v) (val : β → F) (k : F)
    (la lb : List (F × β)) :
    evalTerms val (mergeTerms cmp k la lb)
      = evalTerms val la + k * evalTerms val lb := by
  induction la, lb using mergeTerms.induct cmp k with
  | case1 bs =>
    rw [mergeTerms, evalTerms_scaleFilter, evalTerms_nil, zero_add]
  | case2 a as_ => rw [mergeTerms, evalTerms_nil, mul_zero, add_zero]
  | case3 ca wa as_ cb wb bs hcmp ih =>
    rw [mergeTerms, hcmp, evalTerms_append, ih, evalTerms_cons, evalTerms_cons]
    by_cases h0 : cb * k = 0
    · rw [if_neg (by simp [h0]), evalTerms_nil]
      have hz : k * (cb * val wb) = 0 := by
        rw [← mul_assoc, mul_comm k cb, h0, zero_mul]
      rw [mul_add, hz]
      ring
    · rw [if_pos (by simp [h0]), evalTerms_cons, evalTerms_nil]
      ring
  | case4 ca wa as_ cb wb bs hcmp ih =>
    rw [mergeTerms, hcmp, evalTerms_cons, ih, evalTerms_cons, evalTerms_cons]
    ring
  | case5 ca wa as_ cb wb bs hcmp ih =>
    have hw : wa = wb := heq _ _ hcmp
    subst hw
    rw [mergeTerms, hcmp, evalTerms_append, ih, evalTerms_cons, evalTerms_cons]
    by_cases h0 : ca + cb * k = 0
    · rw [if_neg (by simp [h0]), evalTerms_nil]
      linear_combination (-(val wa)) * h0
    · rw [if_pos (by simp [h0]), evalTerms_cons, evalTerms_nil]
      ring

theorem mergeTerms_coeff {β : Type} [DecidableEq β] (cmp : β → β → Ordering)
    (heq : ∀ u v : β, cmp u v = .eq → u = v) (k : F)
    (la lb : List (F × β)) (x : β) :
    termCoeff (mergeTerms cmp k la lb) x
      = termCoeff la x + k * termCoeff lb x := by
  induction la, lb using mergeTerms.induct cmp k with
  | case1 bs =>
    rw [mergeTerms, termCoeff_scaleFilter, termCoeff_nil, zero_add]
  | case2 a as_ => rw [mergeTerms, termCoeff_nil, mul_zero, add_zero]
  | case3 ca wa as_ cb wb bs hcmp ih =>
    rw [mergeTerms, hcmp, termCoeff_append, ih, termCoeff_cons, termCoeff_cons]
    by_cases h0 : cb * k = 0
    · rw [if_neg (by simp [h0]), termCoeff_nil]
      by_cases hx : wb = x
      · rw [if_pos hx, mul_add, mul_comm k cb, h0]
        ring
      · rw [if_neg hx, mul_add, mul_zero]
        ring
    · rw [if_pos (by simp [h0]), termCoeff_cons, termCoeff_nil]
      by_cases hx : wb = x
      · rw [if_pos hx, if_pos hx, mul_add, mul_comm k cb]
        ring
      · rw [if_neg hx, if_neg hx, mul_add, mul_zero]
        ring
  | case4 ca wa as_ cb wb bs hcmp ih =>
    rw [mergeTerms, hcmp, termCoeff_cons, ih, termCoeff_cons, termCoeff_cons]
    ring
  | case5 ca wa as_ cb wb bs hcmp ih =>
    have hw : wa = wb := heq _ _ hcmp
    subst hw
    rw [mergeTerms, hcmp, termCoeff_append, ih, termCoeff_cons, termCoeff_cons]
    by_cases h0 : ca + cb * k = 0
    · rw [if_neg (by simp [h0]), termCoeff_nil]
      by_cases hx : wa = x
      · rw [if_pos hx, if_pos hx]
        linear_combination -h0
      · rw [if_neg hx, if_neg hx]
        ring
    · rw [if_pos (by simp [h0]), termCoeff_cons, termCoeff_nil]
      by_cases hx : wa = x
      · rw [if_pos hx, if_pos hx, if_pos hx]
        ring
      · rw [if_neg hx, if_neg hx, if_neg hx]
        ring

theorem mergeTerms_key_mem {β : Type} (cmp : β → β → Ordering) (k : F)
    (la lb : List (F × β)) :
    ∀ t ∈ mergeTerms cmp k la lb,
      t.2 ∈ la.map (fun s => s.2) ∨ t.2 ∈ lb.map (fun s => s.2) := by
  induction la, lb using mergeTerms.induct cmp k with
  | case1 bs =>
    intro t ht
    rw [mergeTerms] at ht
    rcases List.mem_filterMap.1 ht with ⟨u, hu, hopt⟩
    right
    split at hopt
    · injection hopt with h
      rw [← h]
      exact List.mem_map.2 ⟨u, hu, rfl⟩
    · cases hopt
  | case2 a as_ =>
    intro t ht
    rw [mergeTerms] at ht
    exact .inl (List.mem_map_of_mem _ ht)
  | case3 ca wa as_ cb wb bs hcmp ih =>
    intro t ht
    rw [mergeTerms, hcmp] at ht
    rcases List.mem_append.1 ht with ht | ht
    · right
      have : t = (cb * k, wb) := by
        split at ht
        · simpa using ht
        · simp at ht
      rw [this]
      simp
    · rcases ih t ht with h | h
      · exact .inl h
      · right
        simp only [List.map_cons, List.mem_cons]
        exact .inr h
  | case4 ca wa as_ cb wb bs hcmp ih =>
    intro t ht
    rw [mergeTerms, hcmp] at ht
    rcases List.mem_cons.1 ht with ht | ht
    · left
      rw [ht]
      simp
    · rcases ih t ht with h | h
      · left
        simp only [List.map_cons, List.mem_cons]
        exact .inr h
      · exact .inr h
  | case5 ca wa as_ cb wb bs hcmp ih =>
    intro t ht
    rw [mergeTerms, hcmp] at ht
    rcases List.mem_append.1 ht with ht | ht
    · left
      have : t = (ca + cb * k, wa) := by
        split at ht
        · simpa using ht
        · simp at ht
      rw [this]
      simp
    · rcases ih t ht with h | h
      · left
        simp only [List.map_cons, List.mem_cons]
        exact .inr h
      · right
        simp only [List.map_cons, List.mem_cons]
        exact .inr h

theorem mergeTerms_sorted {β : Type} (cmp : β → β → Ordering)
    (heq : ∀ u v : β, cmp u v = .eq → u = v)
    (hgt : ∀ u v : β, cmp u v = .gt → cmp v u = .lt)
    (htr : ∀ u v w : β, cmp u v = .lt → cmp v w = .lt → cmp u w = .lt)
    (k : F) (la lb : List (F × β))
    (ha : la.Pairwise (fun s t => cmp s.2 t.2 = .lt))
    (hb : lb.Pairwise (fun s t => cmp s.2 t.2 = .lt)) :
    (mergeTerms cmp k la lb).Pairwise (fun s t => cmp s.2 t.2 = .lt) := by
  induction la, lb using mergeTerms.induct cmp k with
  | case1 bs =>
    rw [mergeTerms]
    rw [List.pairwise_filterMap]
    refine hb.imp_of_mem ?_
    intro s t hs ht hst x hx y hy
    split at hx
    · injection hx with hx
      split at hy
      · injection hy with hy
        rw [← hx, ← hy]
        exact hst
      · cases hy
    · cases hx
  | case2 a as_ =>
    rw [mergeTerms]
    exact ha
  | case3 ca wa as_ cb wb bs hcmp ih =>
    rw [mergeTerms, hcmp]
    rw [List.pairwise_cons] at hb
    have hrec := ih ha hb.2
    rw [List.pairwise_append]
    refine ⟨?_, hrec, ?_⟩
    · split
      · exact List.pairwise_singleton _ _
      · exact List.Pairwise.nil
    · intro x hx y hy
      have hxw : x.2 = wb := by
        split at hx
        · simp at hx
          rw [hx]
        · simp at hx
      rw [hxw]
      rcases mergeTerms_key_mem cmp k _ _ y hy with h | h
      · rcases List.mem_map.1 h with ⟨u, hu, hu2⟩
        rcases List.mem_cons.1 hu with hu | hu
        · rw [← hu2, hu]
          exact hgt _ _ hcmp
        · rw [← hu2]
          exact htr _ _ _ (hgt _ _ hcmp) ((List.pairwise_cons.1 ha).1 u hu)
      · rcases List.mem_map.1 h with ⟨u, hu, hu2⟩
        rw [← hu2]
        exact hb.1 u hu
  | case4 ca wa as_ cb wb bs hcmp ih =>
    rw [mergeTerms, hcmp]
    rw [List.pairwise_cons] at ha
    have hrec := ih ha.2 hb
    refine List.Pairwise.cons ?_ hrec
    intro y hy
    rcases mergeTerms_key_mem cmp k _ _ y hy with h | h
    · rcases List.mem_map.1 h with ⟨u, hu, hu2⟩
      rw [← hu2]
      exact ha.1 u hu
    · rcases List.mem_map.1 h with ⟨u, hu, hu2⟩
      rcases List.mem_cons.1 hu with hu | hu
      · rw [← hu2, hu]
        exact hcmp
      · rw [← hu2]
        exact htr _ _ _ hcmp ((List.pairwise_cons.1 hb).1 u hu)
  | case5 ca wa as_ cb wb bs hcmp ih =>
    have hw : wa = wb := heq _ _ hcmp
    subst hw
    rw [mergeTerms, hcmp]
    rw [List.pairwise_cons] at ha hb
    have hrec := ih ha.2 hb.2
    rw [List.pairwise_append]
    refine ⟨?_, hrec, ?_⟩
    · split
      · exact List.pairwise_singleton _ _
      · exact List.Pairwise.nil
    · intro x hx y hy
      have hxw : x.2 = wa := by
        split at hx
        · simp at hx
          rw [hx]
        · simp at hx
      rw [hxw]
      rcases mergeTerms_key_mem cmp k _ _ y hy with h | h
      · rcases List.mem_map.1 h with ⟨u, hu, hu2⟩
        rw [← hu2]
        exact ha.1 u hu
      · rcases List.mem_map.1 h with ⟨u, hu, hu2⟩
        rw [← hu2]
        exact hb.1 u hu

theorem mergeTerms_nonzero {β : Type} (cmp : β → β → Ordering) (k : F)
    (la lb : List (F × β)) (hza : NonzeroTerms la) :
    NonzeroTerms (mergeTerms cmp k la lb) := by
  induction la, lb using mergeTerms.induct cmp k with
  | case1 bs =>
    intro t ht
    rw [mergeTerms] at ht
    rcases List.mem_filterMap.1 ht with ⟨u, _, hopt⟩
    split at hopt
    · injection hopt with h
      rw [← h]
      simpa using (by assumption : ¬u.1 * k = 0)
    · cases hopt
  | case2 a as_ =>
    intro t ht
    rw [mergeTerms] at ht
    exact hza t ht
  | case3 ca wa as_ cb wb bs hcmp ih =>
    intro t ht
    rw [mergeTerms, hcmp] at ht
    rcases List.mem_append.1 ht with ht | ht
    · split at ht
      · simp only [List.mem_singleton] at ht
        rw [ht]
        simpa using (by assumption : ¬cb * k = 0)
      · simp at ht
    · exact ih hza t ht
  | case4 ca wa as_ cb wb bs hcmp ih =>
    intro t ht
    rw [mergeTerms, hcmp] at ht
    rcases List.mem_cons.1 ht with ht | ht
    · rw [ht]
      exact hza (ca, wa) (List.mem_cons_self _ _)
    · exact ih (fun u hu => hza u (List.mem_cons_of_mem _ hu)) t ht
  | case5 ca wa as_ cb wb bs hcmp ih =>
    intro t ht
    rw [mergeTerms, hcmp] at ht
    rcases List.mem_append.1 ht with ht | ht
    · split at ht
      · simp only [List.mem_singleton] at ht
        rw [ht]
        simpa using (by assumption : ¬(ca + cb * k) = 0)
      · simp at ht
    · exact ih (fun u hu => hza u (List.mem_cons_of_mem _ hu)) t ht

/-- **C1, counterexample.**  The claim states that after `GeneralOpt::optimise`
the mul-term list "contains no term with a zero coefficient" and that "a pair
whose coefficients sum to zero is absent from the result".  This is false:
`optimise` removes zero coefficients *before* merging, so the terms
`1·w0·w1` and `(-1)·w1·w0` of `cancelGate` merge to the retained zero term
`(0, w0, w1)`. -/
theorem optimise_retains_cancelled_zero_term :
    (optimise cancelGate).mul_terms = [(0, 0, 1)] ∧
    ∃ t ∈ (optimise cancelGate).mul_terms, t.1 = (0 : ZMod 101) := by
  refine ⟨by decide, ⟨(0, 0, 1), by decide, by decide⟩⟩

/-- **C1, amended.**  After `GeneralOpt::optimise` the mul-term list has
canonically ordered pairs, strictly sorted (hence pairwise distinct) unordered
witness pairs, each output coefficient is the sum of all input coefficients on
the same unordered pair (so `(c1, x, y)` and `(c2, y, x)` merge), and a pair
occurs in the output iff some *input* term on that unordered pair has a
non-zero coefficient — input zero-coefficient terms are removed, but a pair
whose coefficients sum to zero stays, with coefficient zero. -/
theorem optimise_mul_terms_canonical (gate : Arithmetic F) :
    (∀ t ∈ (optimise gate).mul_terms, t.2.1 ≤ t.2.2) ∧
    (optimise gate).mul_terms.Pairwise
      (fun s t => pairCompare (s.2.1, s.2.2) (t.2.1, t.2.2) = .lt) ∧
    (∀ t ∈ (optimise gate).mul_terms,
      t.1 = mulCoeffAt gate.mul_terms (t.2.1, t.2.2)) ∧
    (∀ p : Witness × Witness,
      (∃ t ∈ (optimise gate).mul_terms, (t.2.1, t.2.2) = p) ↔
        ∃ s ∈ gate.mul_terms, s.1 ≠ 0 ∧ canonPair (s.2.1, s.2.2) = p) := by
  have hrep : (optimise gate).mul_terms =
      ((gate.mul_terms.filter (fun t => decide (t.1 ≠ 0))).foldl simplifyStep []).map
        (fun kv => (kv.2, kv.1.1, kv.1.2)) := rfl
  set l0 := gate.mul_terms.filter (fun t => decide (t.1 ≠ 0)) with hl0
  set m := l0.foldl simplifyStep [] with hmdef
  have hsorted : SortedKeys m := foldl_simplify_sorted _ _ List.Pairwise.nil
  have hkeys : ∀ q, q ∈ m.map Prod.fst ↔ ∃ t ∈ l0, canonPair (t.2.1, t.2.2) = q := by
    intro q
    simpa using foldl_simplify_keys l0 [] q
  have hval : ∀ p, lookupVal m p = mulCoeffAt gate.mul_terms p := by
    intro p
    have h1 := foldl_simplify_lookup l0 [] p
    rw [lookupVal_nil] at h1
    rw [← hmdef] at h1
    rw [h1, hl0, mulCoeffAt_filter_nonzero]
    ring
  refine ⟨?_, ?_, ?_, ?_⟩
  · intro t ht
    rw [hrep] at ht
    rcases List.mem_map.1 ht with ⟨kv, hkv, hf⟩
    have hq : kv.1 ∈ m.map Prod.fst := List.mem_map_of_mem _ hkv
    rcases (hkeys kv.1).1 hq with ⟨u, _, hcu⟩
    have := canonPair_le (u.2.1, u.2.2)
    rw [hcu] at this
    rw [← hf]
    exact this
  · rw [hrep, List.pairwise_map]
    refine hsorted.imp ?_
    intro x y hxy
    simpa using hxy
  · intro t ht
    rw [hrep] at ht
    rcases List.mem_map.1 ht with ⟨kv, hkv, hf⟩
    have hmem : (kv.1, kv.2) ∈ m := by simpa using hkv
    have hlk := lookupVal_of_mem_sorted hsorted hmem
    rw [← hf]
    simp only []
    rw [← hlk, hval kv.1]
  · intro p
    constructor
    · rintro ⟨t, ht, hp⟩
      rw [hrep] at ht
      rcases List.mem_map.1 ht with ⟨kv, hkv, hf⟩
      have hq : kv.1 ∈ m.map Prod.fst := List.mem_map_of_mem _ hkv
      rcases (hkeys kv.1).1 hq with ⟨u, hu, hcu⟩
      rw [hl0, List.mem_filter] at hu
      refine ⟨u, hu.1, by simpa using hu.2, ?_⟩
      rw [hcu]
      rw [← hf] at hp
      simpa using hp
    · rintro ⟨s, hs, hs0, hc⟩
      have hq : p ∈ m.map Prod.fst := by
        refine (hkeys p).2 ⟨s, ?_, hc⟩
        rw [hl0, List.mem_filter]
        exact ⟨hs, by simpa using hs0⟩
      rcases List.mem_map.1 hq with ⟨kv, hkv, hf⟩
      refine ⟨(kv.2, kv.1.1, kv.1.2), ?_, ?_⟩
      · rw [hrep]
        exact List.mem_map_of_mem _ hkv
      · simpa using hf

/-- **C2, counterexample.**  The claim states that `mul(a, b)` succeeds
whenever at least one operand has no bilinear terms.  False: `mul` hits the
degree-3 `todo!("PANIC")` branch whenever *either* operand has a bilinear
term — here `mulPanicA = w0·w1` multiplied by the constant `mulPanicB = 1`,
whose product would only be degree 2. -/
theorem mul_panics_with_one_bilinear_free_operand :
    mulPanicB.mul_terms = [] ∧ mul mulPanicA mulPanicB = .error .panic := by
  exact ⟨rfl, rfl⟩

/-- **C2, amended.**  `mul(a, b)` takes the hard internal error
(`todo!("PANIC")`) branch iff at least one operand has a non-empty bilinear
term list — i.e. the check requires *both* operands to be bilinear-free, not
just one of them. -/
theorem mul_panic_iff_some_bilinear (a b : Arithmetic F) :
    mul a b = .error .panic ↔ ¬(a.mul_terms = [] ∧ b.mul_terms = []) := by
  by_cases hcond : a.mul_terms = [] ∧ b.mul_terms = []
  · simp only [hcond, not_true_eq_false, iff_false]
    unfold mul
    rw [if_neg (by simp [hcond])]
    cases hloop : mulLinLoop a b
        (a.linear_combinations.length + b.linear_combinations.length + 1) 0 0
        ((a.linear_combinations.foldl
          (fun out lc => add out lc.1 (single_mul lc.2 b))
          { mul_terms := [], linear_combinations := [], q_c := 0 }).linear_combinations) with
    | none => simp [hloop]
    | some lin => simp [hloop]
  · simp only [hcond, not_false_eq_true, iff_true]
    unfold mul
    rw [if_pos hcond]

/-- **C3.**  Under the data-model invariant on both operands, `add(a, k, b)`
denotes the polynomial `a + k·b`: the constant term is `a.q_c + k·b.q_c`, the
value at every witness assignment is the linear combination of the operands'
values, the invariant (sorted unique keys, no zero coefficients) is preserved,
and the coefficient carried by each witness / canonically ordered pair is
`c_a + k·c_b` — together with sortedness this pins the linear and bilinear
lists down to exactly the sorted merge with combined coefficients and zero
results dropped. -/
theorem add_spec (a : Arithmetic F) (k : F) (b : Arithmetic F)
    (ha : ExprInvariant a) (hb : ExprInvariant b) :
    (add a k b).q_c = a.q_c + k * b.q_c ∧
    (∀ σ : Witness → F, evalExpr σ (add a k b) = evalExpr σ a + k * evalExpr σ b) ∧
    ExprInvariant (add a k b) ∧
    (∀ w : Witness,
      termCoeff (add a k b).linear_combinations w
        = termCoeff a.linear_combinations w + k * termCoeff b.linear_combinations w) ∧
    (∀ p : Witness × Witness,
      termCoeff (add a k b).mul_terms p
        = termCoeff a.mul_terms p + k * termCoeff b.mul_terms p) := by
  have heqL : ∀ u v : Witness, compare u v = .eq → u = v :=
    fun u v h => Nat.compare_eq_eq.1 h
  have hgtL : ∀ u v : Witness, compare u v = .gt → compare v u = .lt :=
    fun u v h => Nat.compare_eq_lt.2 (Nat.compare_eq_gt.1 h)
  have htrL : ∀ u v w : Witness, compare u v = .lt → compare v w = .lt →
      compare u w = .lt :=
    fun u v w h1 h2 =>
      Nat.compare_eq_lt.2 (Nat.lt_trans (Nat.compare_eq_lt.1 h1) (Nat.compare_eq_lt.1 h2))
  have heqM : ∀ u v : Witness × Witness, pairCompare u v = .eq → u = v :=
    fun u v h => (pairCompare_eq_iff u v).1 h
  have hgtM : ∀ u v : Witness × Witness, pairCompare u v = .gt → pairCompare v u = .lt :=
    fun u v h => (pairCompare_gt_iff u v).1 h
  have htrM : ∀ u v w : Witness × Witness, pairCompare u v = .lt →
      pairCompare v w = .lt → pairCompare u w = .lt :=
    fun _ _ _ h1 h2 => pairCompare_lt_trans h1 h2
  refine ⟨rfl, ?_, ⟨?_, ?_, ?_, ?_⟩, ?_, ?_⟩
  · intro σ
    show a.q_c + k * b.q_c + evalTerms σ (mergeTerms _ k _ _)
        + evalTerms _ (mergeTerms _ k _ _) = _
    rw [mergeTerms_eval _ heqL σ k a.linear_combinations b.linear_combinations,
      mergeTerms_eval _ heqM (fun p => σ p.1 * σ p.2) k a.mul_terms b.mul_terms]
    unfold evalExpr
    ring
  · exact (mergeTerms_sorted _ heqL hgtL htrL k _ _
      (ha.1.imp (fun h => Nat.compare_eq_lt.2 h))
      (hb.1.imp (fun h => Nat.compare_eq_lt.2 h))).imp
      (fun h => Nat.compare_eq_lt.1 h)
  · exact mergeTerms_sorted _ heqM hgtM htrM k _ _ ha.2.1 hb.2.1
  · exact mergeTerms_nonzero _ k _ _ ha.2.2.1
  · exact mergeTerms_nonzero _ k _ _ ha.2.2.2
  · intro w
    exact mergeTerms_coeff _ heqL k _ _ w
  · intro p
    exact mergeTerms_coeff _ heqM k _ _ p

/-- **C3, witness.**  The invariant hypotheses of `add_spec` hold at the
concrete expressions `addInvA`, `addInvB`, and the theorem instantiates there:
`add(addInvA, 2, addInvB)` evaluates at `addSigma` to the linear combination
of the operands' values. -/
theorem add_spec_witness :
    (ExprInvariant addInvA ∧ ExprInvariant addInvB) ∧
    evalExpr addSigma (add addInvA 2 addInvB)
      = evalExpr addSigma addInvA + 2 * evalExpr addSigma addInvB :=
  ⟨⟨by decide, by decide⟩,
   (add_spec addInvA 2 addInvB (by decide) (by decide)).2.1 addSigma⟩

unseal mergeTerms in
/-- **C4.**  `mul` on the purely linear expressions `1 + w2` and `1 + w1`
returns `1 + w1 + w1·w2` — the `w2` linear cross term of the true product is
dropped (the merge loop for the cross linear terms has no tail handling):
at the all-ones assignment the returned expression evaluates to `3` while the
true product `(1 + w2)·(1 + w1)` evaluates to `4`. -/
theorem mul_drops_linear_cross_term :
    mul mulWrongA mulWrongB = .ok mulWrongOut ∧
    evalExpr allOnes mulWrongOut = 3 ∧
    evalExpr allOnes mulWrongA * evalExpr allOnes mulWrongB = 4 := by
  refine ⟨rfl, by decide, by decide⟩

unseal mergeTerms in
/-- The cross-linear-terms loop of `mul` does not even terminate on all purely
linear inputs: on `1 + w1` times `1 + w1 + w2` its cursor update makes no
progress (the `Equal` arm compares `i2 + 1` against the wrong list's length),
which the fuelled embedding reports as divergence. -/
theorem mul_linear_merge_diverges :
    mul (F := ZMod 101)
        { mul_terms := [], linear_combinations := [(1, 1)], q_c := 1 }
        { mul_terms := [], linear_combinations := [(1, 1), (1, 2)], q_c := 1 }
      = .error .diverge := by
  rfl

/-- **C5.**  On operands bound to witnesses 5 (left) and 7 (right),
`evaluate_and` emits `AndGate{a: 5, b: 7, ...}` as the claim demands, but
`evaluate_xor` emits `XorGate{a: 5, b: 5, ...}`: its `b_witness` binding reads
`lhs.witness` instead of `rhs.witness`, so the gate's second operand witness
is the *left* operand's witness whenever the left operand is bound. -/
theorem evaluate_xor_uses_lhs_witness_for_b :
    evaluate_and xorLhs xorRhs 8 e0C5
      = some (from_witness 10, ⟨11, [.AndGate 5 7 10 8]⟩) ∧
    evaluate_xor xorLhs xorRhs 8 e0C5
      = some (from_witness 10, ⟨11, [.XorGate 5 5 10 8]⟩) ∧
    xorRhs.witness = some 7 := ⟨rfl, rfl, rfl⟩

/-- The 1-bit branch of `range_constraint`. -/
theorem range_constraint_one (w : Witness) (e : Evaluator F) :
    range_constraint w 1 e = (pushGate e (.Arith (boolean w)), .ok ()) := by
  rw [range_constraint]
  simp

/-- The even (direct range gate) branch of `range_constraint`. -/
theorem range_constraint_even (w : Witness) (num_bits : Nat) (e : Evaluator F)
    (h1 : num_bits ≠ 1) (h2 : num_bits ≠ fieldMaxNumBits) (h3 : num_bits % 2 = 0) :
    range_constraint w num_bits e = (pushGate e (.Range w num_bits), .ok ()) := by
  rw [range_constraint, dif_neg h1, dif_neg h2, dif_neg (by omega)]

/-- The odd (`Oddrange` split) branch of `range_constraint`, written as the
explicit composition of its two recursive calls. -/
theorem range_constraint_odd (w : Witness) (num_bits : Nat) (e : Evaluator F)
    (h3 : num_bits % 2 = 1) (h1 : num_bits ≠ 1) (h2 : num_bits ≠ fieldMaxNumBits) :
    range_constraint w num_bits e =
      (pushGate
        ((range_constraint (e.current_witness + 1) 1
          ((range_constraint e.current_witness (num_bits - 1)
            (pushGate ({ e with current_witness := e.current_witness + 2 })
              (.DirOddrange w (e.current_witness + 1) e.current_witness num_bits))).1)).1)
        (.Arith (add (add (from_witness e.current_witness)
            ((2 : F) ^ (num_bits - 1))
            (from_witness (e.current_witness + 1)))
          (-1) (from_witness w))), .ok ()) := by
  rw [range_constraint, dif_neg h1, dif_neg h2, dif_pos h3]
  rfl

/-- **C6.**  The range-constraint policy, by cases on the requested width:
`1` emits exactly the boolean-consistency gate; the field's full bit width
(254) returns an error and leaves the evaluator untouched; an odd width emits
the `Oddrange` directive on fresh `r = ctr`, `b = ctr + 1`, recursively
constrains `r` to `num_bits − 1` bits and `b` to 1 bit, then emits the
reconstruction constraint `r + 2^(num_bits−1)·b − w = 0`; every other width
emits a single direct `Range` gate.  For `num_bits = 7` the emitted gates are
exactly `Oddrange, Range(6), boolean, reconstruction` — never a direct 7-bit
range gate. -/
theorem range_constraint_policy (w : Witness) (num_bits : Nat) (e : Evaluator F) :
    (num_bits = 1 →
      range_constraint w num_bits e = (pushGate e (.Arith (boolean w)), .ok ())) ∧
    (num_bits = fieldMaxNumBits →
      (range_constraint w num_bits e).1 = e ∧
      ∃ err, (range_constraint w num_bits e).2 = .error err) ∧
    (num_bits % 2 = 1 → num_bits ≠ 1 → num_bits ≠ fieldMaxNumBits →
      range_constraint w num_bits e =
        (pushGate
          ((range_constraint (e.current_witness + 1) 1
            ((range_constraint e.current_witness (num_bits - 1)
              (pushGate ({ e with current_witness := e.current_witness + 2 })
                (.DirOddrange w (e.current_witness + 1) e.current_witness num_bits))).1)).1)
          (.Arith (add (add (from_witness e.current_witness)
              ((2 : F) ^ (num_bits - 1))
              (from_witness (e.current_witness + 1)))
            (-1) (from_witness w))), .ok ())) ∧
    (num_bits % 2 = 0 → num_bits ≠ fieldMaxNumBits →
      range_constraint w num_bits e = (pushGate e (.Range w num_bits), .ok ())) ∧
    (num_bits = 7 →
      (range_constraint w num_bits e).1.gates = e.gates ++
        [.DirOddrange w (e.current_witness + 1) e.current_witness 7,
         .Range e.current_witness 6,
         .Arith (boolean (e.current_witness + 1)),
         .Arith (add (add (from_witness e.current_witness) ((2 : F) ^ 6)
            (from_witness (e.current_witness + 1))) (-1) (from_witness w))] ∧
      ∀ x : Witness,
        Gate.Range x 7 ∉ (range_constraint w num_bits e).1.gates.drop e.gates.length) := by
  refine ⟨?_, ?_, ?_, ?_, ?_⟩
  · intro h1
    subst h1
    exact range_constraint_one w e
  · intro h2
    subst h2
    rw [range_constraint]
    norm_num [fieldMaxNumBits]
  · intro h3 h1 h2
    exact range_constraint_odd w num_bits e h3 h1 h2
  · intro h3 h2
    exact range_constraint_even w num_bits e (by omega) h2 h3
  · intro h7
    subst h7
    have hgates : (range_constraint w 7 e).1.gates = e.gates ++
        [.DirOddrange w (e.current_witness + 1) e.current_witness 7,
         .Range e.current_witness 6,
         .Arith (boolean (e.current_witness + 1)),
         .Arith (add (add (from_witness e.current_witness) ((2 : F) ^ 6)
            (from_witness (e.current_witness + 1))) (-1) (from_witness w))] := by
      rw [range_constraint_odd w 7 e (by norm_num) (by norm_num)
          (by norm_num [fieldMaxNumBits]),
        range_constraint_even e.current_witness 6 _ (by norm_num)
          (by norm_num [fieldMaxNumBits]) (by norm_num),
        range_constraint_one (e.current_witness + 1) _]
      simp [pushGate]
    refine ⟨hgates, ?_⟩
    intro x
    rw [hgates, List.drop_left]
    simp

/-- The Nat ceiling division identity behind the Sub compensation factor. -/
theorem ceil_div_eq (m B : Nat) (hB : 0 < B) :
    m / B + (if m % B ≠ 0 then 1 else 0) = (m + B - 1) / B := by
  rcases Nat.eq_zero_or_pos (m % B) with h | h
  · rw [if_neg (by simpa using h)]
    have hdvd : B ∣ m := Nat.dvd_of_mod_eq_zero h
    have hm : B * (m / B) = m := Nat.mul_div_cancel' hdvd
    have hsplit : m + B - 1 = B * (m / B) + (B - 1) := by omega
    have hz : (B - 1) / B = 0 := Nat.div_eq_of_lt (by omega)
    rw [hsplit, Nat.mul_add_div hB, hz, Nat.add_zero]
  · rw [if_pos (by omega)]
    have hmod := Nat.div_add_mod m B
    have hlt : m % B < B := Nat.mod_lt m hB
    have hsplit : m + B - 1 = B * (m / B + 1) + (m % B - 1) := by
      rw [Nat.mul_succ]
      omega
    have hz : (m % B - 1) / B = 0 := Nat.div_eq_of_lt (by omega)
    rw [hsplit, Nat.mul_add_div hB, hz, Nat.add_zero]

/-- **C7.**  The Sub lowering equals `add(lhs, −1, rhs)` with the constant
term increased by exactly `k·2^bit_size` for `k = ⌈max_value / 2^bit_size⌉`
(Nat ceiling division, computed exactly); in particular with an 8-bit right
operand and tracked maximum value 200 the increment is `2^8`. -/
theorem evaluate_sub_spec (lhs rhs : Arithmetic F) (bit_size : Nat)
    (max_value : Nat) :
    (evaluate_sub lhs rhs bit_size max_value).linear_combinations
        = (add lhs (-1) rhs).linear_combinations ∧
    (evaluate_sub lhs rhs bit_size max_value).mul_terms
        = (add lhs (-1) rhs).mul_terms ∧
    (evaluate_sub lhs rhs bit_size max_value).q_c
        = (add lhs (-1) rhs).q_c
          + (((max_value + 2 ^ bit_size - 1) / 2 ^ bit_size * 2 ^ bit_size : Nat) : F) ∧
    (bit_size = 8 → max_value = 200 →
      (evaluate_sub lhs rhs bit_size max_value).q_c
        = (add lhs (-1) rhs).q_c + (2 ^ 8 : F)) := by
  have hB : 0 < 2 ^ bit_size := Nat.pos_pow_of_pos _ (by norm_num)
  have hrep : evaluate_sub lhs rhs bit_size max_value =
      { add lhs (-1) rhs with
        q_c := (add lhs (-1) rhs).q_c
          + (((if max_value % 2 ^ bit_size ≠ 0 then max_value / 2 ^ bit_size + 1
               else max_value / 2 ^ bit_size) * 2 ^ bit_size : Nat) : F) } := rfl
  have hk : (if max_value % 2 ^ bit_size ≠ 0 then max_value / 2 ^ bit_size + 1
      else max_value / 2 ^ bit_size) = (max_value + 2 ^ bit_size - 1) / 2 ^ bit_size := by
    rw [← ceil_div_eq _ _ hB]
    by_cases hc : max_value % 2 ^ bit_size = 0 <;> simp [hc]
  refine ⟨by rw [hrep], by rw [hrep], by rw [hrep, hk], ?_⟩
  intro h8 h200
  subst h8
  subst h200
  rw [hrep]
  norm_num

/-- **C7, witness.**  At an 8-bit right operand with tracked maximum value
200, the Sub lowering's constant term is the merged expression's constant
term plus exactly `2^8`. -/
theorem evaluate_sub_spec_witness :
    (evaluate_sub subLhsW subRhsW 8 200).q_c
      = (add subLhsW (-1) subRhsW).q_c + (2 ^ 8 : ZMod 101) :=
  (evaluate_sub_spec subLhsW subRhsW 8 200).2.2.2 rfl rfl

/-- **C1, witness.**  Instantiating the amended theorem on `mergeGate`:
the merged term `(7, w2, w5)` of `optimise mergeGate` carries the summed
coefficient of both insertion orders. -/
theorem optimise_mul_terms_canonical_witness :
    (7 : ZMod 101) = mulCoeffAt mergeGate.mul_terms (2, 5) :=
  (optimise_mul_terms_canonical mergeGate).2.2.1 (7, 2, 5) (by decide)

/-- **C2, witness.**  The amended iff applied at the concrete pair
`mulPanicA`, `mulPanicB`, with its right-hand side discharged by
computation. -/
theorem mul_panic_iff_some_bilinear_witness :
    mul mulPanicA mulPanicB = .error .panic :=
  (mul_panic_iff_some_bilinear mulPanicA mulPanicB).2 (by decide)

/-- **C6, witness.**  The policy instantiated at witness 3, width 7 and the
empty evaluator: the emitted gates are exactly the odd-range split,
a 6-bit range gate, the boolean gate, and the reconstruction constraint. -/
theorem range_constraint_policy_witness :
    (range_constraint (F := ZMod 101) 3 7 ⟨0, []⟩).1.gates =
      [.DirOddrange 3 1 0 7, .Range 0 6, .Arith (boolean 1),
       .Arith (add (add (from_witness 0) ((2 : ZMod 101) ^ 6) (from_witness 1))
         (-1) (from_witness 3))] := by
  have h := (range_constraint_policy (F := ZMod 101) 3 7 ⟨0, []⟩).2.2.2.2 rfl
  simpa using h.1

/-- **C8, counterexample.**  `handle_for_expr` accepts a dynamic END bound:
on `g0C8` the end handle 2 is not a compile-time constant, yet the call
succeeds and the resulting generator contains a phi node — the loop structure
was built instead of failing fast. -/
theorem handle_for_expr_accepts_dynamic_end :
    get_as_constant g0C8 2 = none ∧
    (handle_for_expr g0C8 1 2).isSome = true ∧
    (handle_for_expr g0C8 1 2).map (fun r => hasPhiNode r.1) = some true :=
  ⟨rfl, rfl, rfl⟩

/-- **C8, amended.**  Only the START bound is checked: whenever the start
handle is not a compile-time constant, `handle_for_expr` fails fast (the
`get_as_constant(start_idx).unwrap()` panic), before any loop block or phi
structure is produced, whatever the end bound is. -/
theorem handle_for_expr_start_check (g : IRGenerator) (s e : Nat)
    (h : get_as_constant g s = none) : handle_for_expr g s e = none := by
  rw [handle_for_expr, h]
  rfl

/-- **C8, witness.**  On the generator `gW8` whose node 0 is a variable, the
start bound is non-constant, and the amended theorem gives `none`. -/
theorem handle_for_expr_start_check_witness :
    get_as_constant gW8 0 = none ∧ handle_for_expr gW8 0 0 = none :=
  ⟨rfl, handle_for_expr_start_check gW8 0 0 rfl⟩

theorem find_const_aux_none (v : Nat) :
    ∀ (l : List NodeObj) (s : Nat), find_const_aux v l s = none →
      ∀ (j : Nat) (c : Constant), l[j]? = some (NodeObj.Const c) → c.value ≠ v := by
  intro l
  induction l with
  | nil =>
    intro s _ j c hj
    simp at hj
  | cons o rest ih =>
    intro s hnone j c hj
    cases o with
    | Const c0 =>
      simp only [find_const_aux] at hnone
      by_cases h0 : c0.value = v
      · rw [if_pos h0] at hnone
        cases hnone
      · rw [if_neg h0] at hnone
        cases j with
        | zero =>
          rw [List.getElem?_cons_zero] at hj
          injection hj with hj
          injection hj with hj
          rw [← hj]
          exact h0
        | succ j =>
          rw [List.getElem?_cons_succ] at hj
          exact ih (s + 1) hnone j c hj
    | Obj v0 =>
      simp only [find_const_aux] at hnone
      cases j with
      | zero => simp at hj
      | succ j =>
        rw [List.getElem?_cons_succ] at hj
        exact ih (s + 1) hnone j c hj
    | Instr i0 =>
      simp only [find_const_aux] at hnone
      cases j with
      | zero => simp at hj
      | succ j =>
        rw [List.getElem?_cons_succ] at hj
        exact ih (s + 1) hnone j c hj

theorem find_const_aux_some (v : Nat) :
    ∀ (l : List NodeObj) (s k : Nat), find_const_aux v l s = some k →
      s ≤ k ∧ ∃ c, l[k - s]? = some (NodeObj.Const c) ∧ c.value = v := by
  intro l
  induction l with
  | nil =>
    intro s k h
    simp [find_const_aux] at h
  | cons o rest ih =>
    intro s k h
    cases o with
    | Const c0 =>
      simp only [find_const_aux] at h
      by_cases h0 : c0.value = v
      · rw [if_pos h0] at h
        injection h with h
        subst h
        exact ⟨Nat.le_refl _, c0, by simp, h0⟩
      · rw [if_neg h0] at h
        obtain ⟨hle, c, hc, hv⟩ := ih (s + 1) k h
        refine ⟨by omega, c, ?_, hv⟩
        have hks : k - s = (k - (s + 1)) + 1 := by omega
        rw [hks, List.getElem?_cons_succ]
        exact hc
    | Obj v0 =>
      simp only [find_const_aux] at h
      obtain ⟨hle, c, hc, hv⟩ := ih (s + 1) k h
      refine ⟨by omega, c, ?_, hv⟩
      have hks : k - s = (k - (s + 1)) + 1 := by omega
      rw [hks, List.getElem?_cons_succ]
      exact hc
    | Instr i0 =>
      simp only [find_const_aux] at h
      obtain ⟨hle, c, hc, hv⟩ := ih (s + 1) k h
      refine ⟨by omega, c, ?_, hv⟩
      have hks : k - s = (k - (s + 1)) + 1 := by omega
      rw [hks, List.getElem?_cons_succ]
      exact hc

theorem find_const_aux_isSome (v : Nat) :
    ∀ (l : List NodeObj) (s : Nat),
      (∃ (j : Nat) (c : Constant), l[j]? = some (NodeObj.Const c) ∧ c.value = v) →
      ∃ k, find_const_aux v l s = some k := by
  intro l
  induction l with
  | nil =>
    rintro s ⟨j, c, hj, _⟩
    simp at hj
  | cons o rest ih =>
    rintro s ⟨j, c, hj, hv⟩
    cases o with
    | Const c0 =>
      simp only [find_const_aux]
      by_cases h0 : c0.value = v
      · exact ⟨s, by rw [if_pos h0]⟩
      · rw [if_neg h0]
        apply ih (s + 1)
        cases j with
        | zero =>
          rw [List.getElem?_cons_zero] at hj
          injection hj with hj
          injection hj with hj
          exact absurd (hj ▸ hv) h0
        | succ j =>
          rw [List.getElem?_cons_succ] at hj
          exact ⟨j, c, hj, hv⟩
    | Obj v0 =>
      simp only [find_const_aux]
      apply ih (s + 1)
      cases j with
      | zero => simp at hj
      | succ j =>
        rw [List.getElem?_cons_succ] at hj
        exact ⟨j, c, hj, hv⟩
    | Instr i0 =>
      simp only [find_const_aux]
      apply ih (s + 1)
      cases j with
      | zero => simp at hj
      | succ j =>
        rw [List.getElem?_cons_succ] at hj
        exact ⟨j, c, hj, hv⟩

theorem getElem?_concat_cases {α : Type} (l : List α) (x : α) (i : Nat) (y : α)
    (h : (l ++ [x])[i]? = some y) :
    (i < l.length ∧ l[i]? = some y) ∨ (i = l.length ∧ y = x) := by
  rcases Nat.lt_trichotomy i l.length with hlt | heq | hgt
  · left
    refine ⟨hlt, ?_⟩
    rwa [List.getElem?_append_left hlt] at h
  · right
    subst heq
    rw [List.getElem?_concat_length] at h
    exact ⟨rfl, (Option.some.inj h).symm⟩
  · exfalso
    have hnone : (l ++ [x])[i]? = none := by
      rw [List.getElem?_eq_none]
      simp only [List.length_append, List.length_singleton]
      omega
    rw [hnone] at h
    cases h

theorem nodup_consts_concat (g g2 : IRGenerator) (c : Constant)
    (hg : g2.nodes = g.nodes ++ [NodeObj.Const c])
    (hnodup : NoDupConsts g) (hfresh : ∀ i, ¬constAt g i c.value) :
    NoDupConsts g2 := by
  intro i j ci cj hi hj hv
  rw [hg] at hi hj
  rcases getElem?_concat_cases _ _ _ _ hi with ⟨hilt, hiold⟩ | ⟨hieq, hic⟩ <;>
    rcases getElem?_concat_cases _ _ _ _ hj with ⟨hjlt, hjold⟩ | ⟨hjeq, hjc⟩
  · exact hnodup i j ci cj hiold hjold hv
  · exfalso
    have hcj : cj = c := by injection hjc
    exact hfresh i ⟨ci, hiold, by rw [hv, hcj]⟩
  · exfalso
    have hci : ci = c := by injection hic
    exact hfresh j ⟨cj, hjold, by rw [← hv, hci]⟩
  · omega

/-- **C9.**  Constants are deduplicated by value: when the arena holds a
`Constant` of value `v`, `find_const` finds one, and both `get_const` and
`new_constant` then return exactly that prior handle with the generator state
unchanged (no node inserted); and both operations preserve the invariant that
no two `Constant` nodes hold the same value. -/
theorem constants_deduplicated (g : IRGenerator) (v : Nat) (t : ObjectType) :
    ((∃ i, constAt g i v) → ∃ i, find_const g v = some i ∧ constAt g i v) ∧
    (∀ i, find_const g v = some i →
      get_const g v t = (g, i) ∧ new_constant g v = some (g, i)) ∧
    (NoDupConsts g → NoDupConsts (get_const g v t).1) ∧
    (NoDupConsts g → ∀ g2 k, new_constant g v = some (g2, k) → NoDupConsts g2) := by
  refine ⟨?_, ?_, ?_, ?_⟩
  · rintro ⟨i, c, hc, hv⟩
    obtain ⟨k, hk⟩ := find_const_aux_isSome v g.nodes 0 ⟨i, c, hc, hv⟩
    refine ⟨k, hk, ?_⟩
    obtain ⟨_, c2, hc2, hv2⟩ := find_const_aux_some v g.nodes 0 k hk
    exact ⟨c2, by simpa using hc2, hv2⟩
  · intro i h
    exact ⟨by simp [get_const, h], by simp [new_constant, h]⟩
  · intro hnodup
    cases hfind : find_const g v with
    | some i => simpa [get_const, hfind] using hnodup
    | none =>
      have hfresh : ∀ i, ¬constAt g i v := by
        rintro i ⟨c, hc, hv⟩
        exact find_const_aux_none v g.nodes 0 hfind i c hc hv
      refine nodup_consts_concat g _
        { id := g.nodes.length, value := v, value_str := "", value_type := t }
        (by simp [get_const, hfind, add_object]) hnodup hfresh
  · intro hnodup g2 k h
    cases hfind : find_const g v with
    | some i =>
      simp only [new_constant, hfind, Option.some.injEq, Prod.mk.injEq] at h
      rw [← h.1]
      exact hnodup
    | none =>
      simp only [new_constant, hfind] at h
      by_cases h32 : numBitsOf v < 32
      · rw [if_pos h32] at h
        have hfst : (add_object g (NodeObj.Const
            { id := dummyId, value := v, value_str := "", value_type := .Signed 32 })).1
              = g2 := by
          have hpair := Option.some.inj h
          rw [hpair]
        refine nodup_consts_concat g _
          { id := g.nodes.length, value := v, value_str := "", value_type := .Signed 32 }
          ?_ hnodup ?_
        · rw [← hfst]
          simp [add_object]
        · rintro i ⟨c, hc, hv⟩
          exact find_const_aux_none v g.nodes 0 hfind i c hc hv
      · rw [if_neg h32] at h
        by_cases h64 : numBitsOf v < 64
        · rw [if_pos h64] at h
          have hfst : (add_object g (NodeObj.Const
              { id := dummyId, value := v, value_str := "", value_type := .Signed 64 })).1
                = g2 := by
            have hpair := Option.some.inj h
            rw [hpair]
          refine nodup_consts_concat g _
            { id := g.nodes.length, value := v, value_str := "", value_type := .Signed 64 }
            ?_ hnodup ?_
          · rw [← hfst]
            simp [add_object]
          · rintro i ⟨c, hc, hv⟩
            exact find_const_aux_none v g.nodes 0 hfind i c hc hv
        · rw [if_neg h64] at h
          cases h

/-- **C9, witness.**  In an arena already holding a constant 5 at slot 0, both
`get_const` and `new_constant` for value 5 return handle 0 and leave the
generator untouched. -/
theorem constants_deduplicated_witness :
    find_const g0C9 5 = some 0 ∧
    get_const g0C9 5 (.Signed 32) = (g0C9, 0) ∧
    new_constant g0C9 5 = some (g0C9, 0) :=
  ⟨rfl, (constants_deduplicated g0C9 5 (.Signed 32)).2.1 0 rfl⟩

theorem try_get_instruction_append {g g1 : IRGenerator} (extra : List NodeObj)
    (hnodes : g1.nodes = g.nodes ++ extra) {i : Nat} (hi : i < g.nodes.length) :
    try_get_instruction g1 i = try_get_instruction g i := by
  unfold try_get_instruction get_object
  rw [hnodes, List.getElem?_append_left hi]

/-- Dissecting a failed duplicate-phi scan step. -/
theorem scan_phi_cons_none (g : IRGenerator) (root i0 : Nat) (rest : List Nat)
    (h : scan_phi g root (i0 :: rest) = none) :
    scan_phi g root rest = none ∧
    (∀ ins, try_get_instruction g i0 = some ins →
      ¬(ins.operator = .Phi ∧ ins.rhs = root)) := by
  rw [scan_phi] at h
  cases htry : try_get_instruction g i0 with
  | none =>
    rw [htry] at h
    replace h : scan_phi g root rest = none := h
    refine ⟨h, ?_⟩
    intro ins hi
    cases hi
  | some ins =>
    rw [htry] at h
    replace h : (if ins.operator = Operation.Phi ∧ ins.rhs = root then some i0
        else scan_phi g root rest) = none := h
    by_cases hcond : ins.operator = .Phi ∧ ins.rhs = root
    · rw [if_pos hcond] at h
      cases h
    · rw [if_neg hcond] at h
      refine ⟨h, ?_⟩
      intro ins2 hi
      injection hi with hi
      rw [← hi]
      exact hcond

/-- After the insertion, the scan finds the fresh phi at the second slot. -/
theorem scan_phi_finds_new (g g1 : IRGenerator) (root i0 : Nat) (rest : List Nat)
    (phi : Instruction) (hnodes : g1.nodes = g.nodes ++ [NodeObj.Instr phi])
    (hop : phi.operator = .Phi) (hrhs : phi.rhs = root)
    (hi0 : i0 < g.nodes.length)
    (hmiss : ∀ ins, try_get_instruction g i0 = some ins →
      ¬(ins.operator = .Phi ∧ ins.rhs = root)) :
    scan_phi g1 root (i0 :: g.nodes.length :: rest) = some g.nodes.length := by
  have hsame : try_get_instruction g1 i0 = try_get_instruction g i0 :=
    try_get_instruction_append _ hnodes hi0
  have hphi : try_get_instruction g1 g.nodes.length = some phi := by
    unfold try_get_instruction get_object
    rw [hnodes, List.getElem?_concat_length]
  have hstep2 : scan_phi g1 root (g.nodes.length :: rest) = some g.nodes.length := by
    rw [scan_phi, hphi]
    show (if phi.operator = Operation.Phi ∧ phi.rhs = root then some g.nodes.length
      else scan_phi g1 root rest) = some g.nodes.length
    rw [if_pos ⟨hop, hrhs⟩]
  rw [scan_phi, hsame]
  cases htry : try_get_instruction g i0 with
  | none => exact hstep2
  | some ins =>
    show (if ins.operator = Operation.Phi ∧ ins.rhs = root then some i0
      else scan_phi g1 root (g.nodes.length :: rest)) = some g.nodes.length
    rw [if_neg (hmiss ins htry)]
    exact hstep2

/-- One-step computation law for `generate_empty_phi` once the target block is
resolved. -/
theorem generate_empty_phi_eq (g : IRGenerator) (target_block root : Nat)
    (block : BasicBlock) (hb : g.blocks[target_block]? = some block) :
    generate_empty_phi g target_block root =
      match scan_phi g root block.instructions with
      | some i => some (g, i)
      | none =>
        match get_object_type g root with
        | none => none
        | some vt =>
          match block.instructions with
          | [] => none
          | i0 :: rest =>
            some (phiInserted g target_block root vt block i0 rest,
              g.nodes.length) := by
  have hbind : ∀ {α β : Type} (b : α) (f : α → Option β),
      (Bind.bind (some b) f : Option β) = f b := fun _ _ => rfl
  rw [generate_empty_phi, hb, hbind]
  cases hscan : scan_phi g root block.instructions with
  | some i => rfl
  | none =>
    cases hvt : get_object_type g root with
    | none => rfl
    | some vt =>
      cases hinstr : block.instructions with
      | nil => rfl
      | cons i0 rest => rfl

/-- **C10.**  `generate_empty_phi` is idempotent per `(block, root)` pair:
when the target block already holds a phi whose `rhs` is the root, that
instruction's handle is returned and the state is untouched; calling it again
on the state produced by a first call returns the same handle and changes
nothing; and only a first (cache-missing) call creates a phi, splicing its
handle into the block's instruction list at position 1. -/
theorem generate_empty_phi_idempotent (g : IRGenerator) (target_block root : Nat)
    (block : BasicBlock) (hb : g.blocks[target_block]? = some block)
    (hvalid : ∀ i ∈ block.instructions, i < g.nodes.length) :
    (∀ i, scan_phi g root block.instructions = some i →
      generate_empty_phi g target_block root = some (g, i)) ∧
    (∀ g1 id, generate_empty_phi g target_block root = some (g1, id) →
      generate_empty_phi g1 target_block root = some (g1, id)) ∧
    (∀ g1 id, scan_phi g root block.instructions = none →
      generate_empty_phi g target_block root = some (g1, id) →
      id = g.nodes.length ∧
      ∃ vt, get_object_type g root = some vt ∧
        g1.nodes = g.nodes ++ [NodeObj.Instr (freshPhi g target_block root vt)] ∧
        ∃ i0 rest, block.instructions = i0 :: rest ∧
          g1.blocks[target_block]? =
            some { block with instructions := i0 :: id :: rest }) := by
  have htb : target_block < g.blocks.length := by
    by_contra hcon
    rw [List.getElem?_eq_none (by omega)] at hb
    cases hb
  have hone : ∀ i, scan_phi g root block.instructions = some i →
      generate_empty_phi g target_block root = some (g, i) := by
    intro i h
    rw [generate_empty_phi_eq g target_block root block hb, h]
  have hmiss_shape : ∀ g1 id, scan_phi g root block.instructions = none →
      generate_empty_phi g target_block root = some (g1, id) →
      id = g.nodes.length ∧
      ∃ vt, get_object_type g root = some vt ∧
        ∃ i0 rest, block.instructions = i0 :: rest ∧
          g1 = phiInserted g target_block root vt block i0 rest := by
    intro g1 id hscan h
    rw [generate_empty_phi_eq g target_block root block hb, hscan] at h
    cases hvt : get_object_type g root with
    | none =>
      rw [hvt] at h
      exact Option.noConfusion h
    | some vt =>
      rw [hvt] at h
      cases hinstr : block.instructions with
      | nil =>
        rw [hinstr] at h
        exact Option.noConfusion h
      | cons i0 rest =>
        rw [hinstr] at h
        have h2 : (phiInserted g target_block root vt block i0 rest,
            g.nodes.length) = (g1, id) := Option.some.inj h
        have hg : phiInserted g target_block root vt block i0 rest = g1 :=
          congrArg Prod.fst h2
        have hid : g.nodes.length = id := congrArg Prod.snd h2
        exact ⟨hid.symm, vt, rfl, i0, rest, rfl, hg.symm⟩
  refine ⟨hone, ?_, ?_⟩
  · intro g1 id h
    cases hscan : scan_phi g root block.instructions with
    | some i =>
      have h0 := hone i hscan
      rw [h0] at h
      have h2 : (g, i) = (g1, id) := Option.some.inj h
      have hg : g = g1 := congrArg Prod.fst h2
      have hi : i = id := congrArg Prod.snd h2
      subst hg
      subst hi
      exact hone i hscan
    | none =>
      obtain ⟨hid, vt, hvt, i0, rest, hinstr, hg1⟩ := hmiss_shape g1 id hscan h
      subst hid
      have hb1 : g1.blocks[target_block]? =
          some { block with instructions := i0 :: g.nodes.length :: rest } := by
        rw [hg1]
        show (g.blocks.set target_block _)[target_block]? = _
        rw [List.getElem?_set_self (by omega)]
      have hnodes1 : g1.nodes = g.nodes ++
          [NodeObj.Instr (freshPhi g target_block root vt)] := by
        rw [hg1]; rfl
      have hscan1 : scan_phi g1 root (i0 :: g.nodes.length :: rest)
          = some g.nodes.length := by
        refine scan_phi_finds_new g g1 root i0 rest _ hnodes1 rfl rfl
          (hvalid i0 (by rw [hinstr]; exact List.mem_cons_self _ _)) ?_
        rw [hinstr] at hscan
        exact (scan_phi_cons_none g root i0 _ hscan).2
      rw [generate_empty_phi_eq g1 target_block root _ hb1]
      show (match scan_phi g1 root (i0 :: g.nodes.length :: rest) with
        | some i => some (g1, i)
        | none => _) = _
      rw [hscan1]
  · intro g1 id hscan h
    obtain ⟨hid, vt, hvt, i0, rest, hinstr, hg1⟩ := hmiss_shape g1 id hscan h
    subst hid
    refine ⟨rfl, vt, hvt, by rw [hg1]; rfl, i0, rest, hinstr, ?_⟩
    rw [hg1]
    show (g.blocks.set target_block _)[target_block]? = _
    rw [List.getElem?_set_self (by omega)]

/-- **C10, witness.**  A first call on `g0C10` inserts the phi (handle 2, at
position 1 of the block); the second call, through the idempotence theorem,
returns the same handle and leaves `g1C10` unchanged. -/
theorem generate_empty_phi_idempotent_witness :
    generate_empty_phi g0C10 0 1 = some (g1C10, 2) ∧
    generate_empty_phi g1C10 0 1 = some (g1C10, 2) :=
  ⟨rfl, (generate_empty_phi_idempotent g0C10 0 1
      { idx := 0, kind := .ForJoin, instructions := [0], predecessor := [],
        left := none, right := none, value_map := [] }
      rfl (by decide)).2.1 g1C10 2 rfl⟩

end Noir
